import Mathlib

/-!
Verification of the disk-cleanup-tool core: the directory classifier
(`src/utils.rs`), the hierarchical scan-and-aggregate engine
(`src/scanner.rs`) and the tabular snapshot encoder/decoder
(`src/csv_handler.rs`).

The Rust code is shallowly embedded:
* filesystem paths (`PathBuf`) are modelled by their component lists
  (`Path := List String`); `Path::file_name` is the last component,
  `Path::parent` drops the last component (returning `none` on the empty
  path), and `Path::components().count()` is the list length;
* the filesystem under the scan root is a finite tree whose nodes are
  files (with a byte size), directories (with named children) or
  unreadable entries (`err`), the latter standing for a walk or metadata
  error that the Rust code skips with a warning;
* `u64` values are `Nat`; overflow only matters when parsing back from a
  snapshot, where the parser rejects values `≥ 2^64` exactly as Rust's
  `u64::from_str` does;
* fallible functions return `Except`.
-/

namespace DiskCleanup

/-! ### Classifier (`src/utils.rs`) -/

/-- The fixed catalog of temp-directory names, verbatim from the
`matches!` arms of `is_temp_directory` in `src/utils.rs`. -/
def tempCatalog : List String :=
  [ "node_modules", ".npm", ".yarn", ".pnpm-store", ".turbo",
    ".parcel-cache", ".webpack", ".rollup.cache", ".vite", ".next",
    ".nuxt", ".output", ".vercel", ".netlify", "bower_components",
    ".venv", "venv", "env", ".env", "__pycache__", ".pytest_cache",
    ".mypy_cache", ".tox", ".eggs", "*.egg-info", ".ipynb_checkpoints",
    "target", ".fingerprint", ".cargo",
    "dist", "build", "out", ".build", "_build", ".gradle", ".mvn",
    ".cache", "cache", ".tmp", "tmp", "temp", ".temp",
    ".nvm", ".rvm", ".rbenv", ".pyenv",
    ".idea", ".vscode", ".vs", ".eclipse", ".settings",
    ".DS_Store", "Thumbs.db", ".Trash",
    "coverage", ".coverage", ".nyc_output", "htmlcov", ".sass-cache",
    ".docusaurus" ]

/-- `is_temp_directory` from `src/utils.rs`: a `matches!` of the name
against the fixed catalog, i.e. exact whole-string membership. -/
def is_temp_directory (name : String) : Bool :=
  tempCatalog.contains name

/-! ### Decimal rendering and parsing of `u64` values

`write_csv` renders every `u64` with Rust's `Display` (plain decimal
digits); `read_csv` parses with `u64::from_str`, which accepts an
optional leading sign, then one or more ASCII digits, and fails on
overflow.  We model them over `Nat`. -/

/-- Decimal digit to its ASCII character. -/
def digitChar (d : Nat) : Char :=
  match d with
  | 0 => '0' | 1 => '1' | 2 => '2' | 3 => '3' | 4 => '4'
  | 5 => '5' | 6 => '6' | 7 => '7' | 8 => '8' | _ => '9'

/-- ASCII digit test, as in `u64::from_str`. -/
def isDigitCh (c : Char) : Bool :=
  48 ≤ c.toNat && c.toNat ≤ 57

/-- Numeric value of an ASCII digit. -/
def charVal (c : Char) : Nat := c.toNat - 48

/-- Digits of `n`, most significant first; `fuel` bounds the recursion
(`fuel > n` suffices). -/
def natToStrAux : Nat → Nat → List Char
  | 0, _ => []
  | fuel + 1, n => if n = 0 then [] else natToStrAux fuel (n / 10) ++ [digitChar (n % 10)]

/-- Rust `u64` `Display`: plain decimal, `"0"` for zero. -/
def natToStr (n : Nat) : String :=
  if n = 0 then "0" else ⟨natToStrAux (n + 1) n⟩

/-- `u64::from_str` accepts one optional leading `'+'`. -/
def stripPlus (cs : List Char) : List Char :=
  match cs with
  | [] => []
  | c :: rest => if c = '+' then rest else c :: rest

/-- Model of `str::parse::<u64>`: optional leading `'+'`, then a
non-empty run of ASCII digits, value below `2 ^ 64` (overflow fails). -/
def parseU64 (s : String) : Option Nat :=
  let cs := stripPlus s.data
  if cs = [] then none
  else if cs.all isDigitCh then
    let v := cs.foldl (fun a c => a * 10 + charVal c) 0
    if v < 2 ^ 64 then some v else none
  else none

/-! ### Snapshot data model (`src/csv_handler.rs`)

The CSV layer operates on the same Rust struct `DirectoryEntry` as the
scanner, with the `PathBuf` rendered via `to_string_lossy` on write and
rebuilt via `PathBuf::from` on read; on UTF-8 paths these two are
mutually inverse identities, so here the path is a `String`.  A parsed
CSV file is modelled at the record level — a header row plus data rows,
each a list of cell strings — which is exactly the view the `csv` crate
presents to `write_csv`/`read_csv` (the crate's quoting layer is
lossless on records). -/

/-- `EntryType` from `src/scanner.rs`. -/
inductive EntryType where
  | normal
  | temp
deriving DecidableEq, Repr

/-- The snapshot view of `DirectoryEntry` (path as its UTF-8 string). -/
structure CsvEntry where
  path : String
  file_count : Nat
  size_bytes : Nat
  cumulative_file_count : Nat
  cumulative_size_bytes : Nat
  entry_type : EntryType
deriving DecidableEq, Repr

/-- Which field of a row `read_csv` complained about.  The Rust code
attaches a formatted message; we abstract the message to its reason. -/
inductive CsvReason where
  | columnCount
  | fileCount
  | sizeBytes
  | cumFileCount
  | cumSizeBytes
  | typeLit
deriving DecidableEq, Repr

/-- `CsvError` from `src/csv_handler.rs` (the loader-relevant variants:
a missing required column, or a row-level parse error carrying the
1-based file line, header included). -/
inductive CsvError where
  | missingColumn (name : String)
  | parseError (line : Nat) (reason : CsvReason)
deriving DecidableEq, Repr

/-- The `type` column literal written by `write_csv`. -/
def entryTypeStr : EntryType → String
  | .temp => "temp"
  | .normal => "normal"

/-- The 6-column header written by `write_csv`. -/
def csvHeader : List String :=
  ["path", "files", "size_bytes", "cumulative_files", "cumulative_size_bytes", "type"]

/-- One data record written by `write_csv` for an entry. -/
def writeRow (e : CsvEntry) : List String :=
  [e.path, natToStr e.file_count, natToStr e.size_bytes,
   natToStr e.cumulative_file_count, natToStr e.cumulative_size_bytes,
   entryTypeStr e.entry_type]

/-- `write_csv`: the header record followed by one record per entry. -/
def write_csv (entries : List CsvEntry) : List String × List (List String) :=
  (csvHeader, entries.map writeRow)

/-- The four columns `read_csv` requires, in the order it checks them. -/
def requiredColumns : List String := ["path", "files", "size_bytes", "type"]

/-- Lift an optional parsed number into the row parser, with the error
`read_csv` raises when the field does not parse. -/
def parseField (v : Option Nat) (line : Nat) (reason : CsvReason) : Except CsvError Nat :=
  match v with
  | some n => .ok n
  | none => .error (.parseError line reason)

/-- The per-record body of `read_csv`'s loop: column-count check, the
positional numeric fields (3 or 5 depending on the schema), and the
`type` literal. -/
def parseRow (hasCum : Bool) (line : Nat) (r : List String) : Except CsvError CsvEntry := do
  let expected := if hasCum then 6 else 4
  if r.length < expected then
    throw (.parseError line .columnCount)
  else
    let fc ← parseField (parseU64 (r.getD 1 "")) line .fileCount
    let sz ← parseField (parseU64 (r.getD 2 "")) line .sizeBytes
    let rest ←
      if hasCum then do
        let a ← parseField (parseU64 (r.getD 3 "")) line .cumFileCount
        let b ← parseField (parseU64 (r.getD 4 "")) line .cumSizeBytes
        pure (a, b, 5)
      else
        pure (fc, sz, 3)
    let t := r.getD rest.2.2 ""
    let et ←
      if t = "temp" then pure EntryType.temp
      else if t = "normal" then pure EntryType.normal
      else throw (.parseError line .typeLit)
    pure { path := r.getD 0 "", file_count := fc, size_bytes := sz,
           cumulative_file_count := rest.1, cumulative_size_bytes := rest.2.1,
           entry_type := et }

/-- `read_csv`'s record loop; `line` starts at 2 (line 1 is the header). -/
def readRows (hasCum : Bool) : Nat → List (List String) → Except CsvError (List CsvEntry)
  | _, [] => .ok []
  | line, r :: rest => do
    let e ← parseRow hasCum line r
    let es ← readRows hasCum (line + 1) rest
    pure (e :: es)

/-- `read_csv`: reject the first missing required column before any row
is parsed, detect the schema by presence of `cumulative_files`, then
parse the records in order. -/
def read_csv (header : List String) (rows : List (List String)) : Except CsvError (List CsvEntry) :=
  match requiredColumns.find? (fun c => ! header.contains c) with
  | some c => .error (.missingColumn c)
  | none => readRows (header.contains ("cumulative_files")) 2 rows

/-! ### Scanner (`src/scanner.rs`)

`scan_directory` walks a real filesystem.  We model the filesystem under
the scan root as a finite tree.  A node is a file with a byte size, a
directory with a list of named children, or `err` — an entry whose walk
or metadata read fails, which the Rust code skips with a warning (in
both passes; the filesystem is taken to be unchanged between passes).
The scan root itself is modelled as a directory (the tool scans
directory trees); its name, which Pass 1 does inspect, is the last
component of the configured `root_path`. -/

/-- A filesystem path as its list of components (`PathBuf`).
`file_name` is the last component; `parent` drops the last component;
the depth used by Pass 3 (`components().count()`) is the length. -/
abbrev Path := List String

/-- `PathBuf::parent`: `none` for the empty path. -/
def parentPath : Path → Option Path
  | [] => none
  | q => some q.dropLast

/-- Classification of a directory from its `file_name`, as in Pass 1:
a path with no final component is never temp. -/
def isTempPath (p : Path) : Bool :=
  match p.getLast? with
  | some n => is_temp_directory n
  | none => false

/-- A filesystem subtree. -/
inductive FsTree where
  | file (size : Nat)
  | err
  | dir (entries : List (String × FsTree))

mutual
/-- Real directories never contain two entries with the same name. -/
def FsTree.wf : FsTree → Bool
  | .file _ => true
  | .err => true
  | .dir es => (es.map (fun e => e.1)).Nodup && FsTree.wfList es
/-- Well-formedness of a child list. -/
def FsTree.wfList : List (String × FsTree) → Bool
  | [] => true
  | (_, c) :: rest => c.wf && FsTree.wfList rest
end

mutual
/-- Pass 2's sub-walk of a temp directory: total file count and byte
size over the entire subtree, metadata/walk failures skipped. -/
def subtreeCount : FsTree → Nat × Nat
  | .file s => (1, s)
  | .err => (0, 0)
  | .dir es => subtreeCountList es
/-- Subtree totals of a child list. -/
def subtreeCountList : List (String × FsTree) → Nat × Nat
  | [] => (0, 0)
  | (_, c) :: rest =>
    let a := subtreeCount c
    let b := subtreeCountList rest
    (a.1 + b.1, a.2 + b.2)
end

/-- Count and total size of the files directly inside a directory
(Pass 1's per-file attribution to the immediate parent). -/
def directStats : List (String × FsTree) → Nat × Nat
  | [] => (0, 0)
  | (_, .file s) :: rest =>
    let b := directStats rest
    (b.1 + 1, b.2 + s)
  | _ :: rest => directStats rest

/-- One row of the `dir_stats` map after Passes 1 and 2:
path, temp classification, direct file count, direct size. -/
structure DirStat where
  path : Path
  isTemp : Bool
  fc : Nat
  sz : Nat
deriving DecidableEq, Repr

mutual
/-- Passes 1 and 2 combined, per registered directory.  `anc` says
whether some directory on the chain from the root down to (and
including) this directory's parent is temp-named — exactly the set of
ancestors the per-file loop in Pass 1 inspects, which starts at the
file's immediate parent and checks each ancestor's name, the root's
included, before stopping at the root.  A directory's direct stats are:
its Pass 2 subtree totals if it is temp-named; zero if it sits inside a
temp directory (its files are skipped in Pass 1); otherwise the files
directly inside it. -/
def rawStats (p : Path) (anc : Bool) : FsTree → List DirStat
  | .file _ => []
  | .err => []
  | .dir es =>
    let tmp := isTempPath p
    let here := anc || tmp
    let direct :=
      if tmp then subtreeCountList es
      else if here then (0, 0)
      else directStats es
    ⟨p, tmp, direct.1, direct.2⟩ :: rawStatsList p here es
/-- Registered directories of a child list. -/
def rawStatsList (p : Path) (anc : Bool) : List (String × FsTree) → List DirStat
  | [] => []
  | (n, c) :: rest => rawStats (p ++ [n]) anc c ++ rawStatsList p anc rest
end

/-- First child with the given name (path-component resolution; real
directories carry each name at most once). -/
def findChild (n : String) : List (String × FsTree) → Option FsTree
  | [] => none
  | (n', c) :: rest => if n' = n then some c else findChild n rest

/-- Resolve a relative component path from a directory's child list to
the child list of the subdirectory it denotes. -/
def lookupSub : List (String × FsTree) → List String → Option (List (String × FsTree))
  | es, [] => some es
  | es, n :: rel =>
    match findChild n es with
    | some (.dir es') => lookupSub es' rel
    | _ => none

/-- Association-list lookup keyed by path (`HashMap::get`). -/
def alookup (p : Path) : List (Path × (Nat × Nat)) → Option (Nat × Nat)
  | [] => none
  | (k, v) :: rest => if k = p then some v else alookup p rest

/-- Pass 3 processing order: deeper directories first
(`sort_by(|a, b| b.1.cmp(&a.1))` on component counts). -/
def depthGe (a b : DirStat) : Prop := b.path.length ≤ a.path.length

instance : DecidableRel depthGe := fun a b => Nat.decLe b.path.length a.path.length

instance : IsTotal DirStat depthGe :=
  ⟨fun a b => Nat.le_total b.path.length a.path.length⟩

instance : IsTrans DirStat depthGe :=
  ⟨fun _ _ _ h1 h2 => Nat.le_trans h2 h1⟩

/-- The fold body of Pass 3's inner loop: add a registered directory's
already-computed cumulative stats when its immediate parent path equals
`p` (skipping itself and anything not yet computed, as the Rust
`if let Some` does). -/
def childAdd (acc : List (Path × (Nat × Nat))) (p : Path) (a : Nat × Nat)
    (c : DirStat) : Nat × Nat :=
  if parentPath c.path = some p ∧ c.path ≠ p then
    match alookup c.path acc with
    | some v => (a.1 + v.1, a.2 + v.2)
    | none => a
  else a

/-- Pass 3's loop: cumulative stats start from the directory's own
direct stats, then add the cumulative stats of every registered
directory whose immediate parent path equals this one. -/
def pass3go (all : List DirStat) (acc : List (Path × (Nat × Nat))) :
    List DirStat → List (Path × (Nat × Nat))
  | [] => acc
  | d :: rest =>
    pass3go all (acc ++ [(d.path, all.foldl (childAdd acc d.path) (d.fc, d.sz))]) rest

/-- Pass 3: bottom-up cumulative aggregation, deepest first. -/
def pass3 (stats : List DirStat) : List (Path × (Nat × Nat)) :=
  pass3go stats [] (List.insertionSort depthGe stats)

/-- The registered directories whose immediate parent path is `p`
(the set Pass 3's inner loop sums over). -/
def childrenOf (all : List DirStat) (p : Path) : List DirStat :=
  all.filter (fun c => decide (parentPath c.path = some p ∧ c.path ≠ p))

/-- Total lookup into a cumulative-stats table, zero when absent
(absent children contribute nothing in the fold). -/
def cumLookup (acc : List (Path × (Nat × Nat))) (q : Path) : Nat × Nat :=
  (alookup q acc).getD (0, 0)

/-- The value Pass 3 computes for a directory: its direct stats plus
the sum, over registered directories whose immediate parent path is the
directory's path, of their cumulative stats as read through `κ`. -/
def cumFormula (all : List DirStat) (κ : Path → Nat × Nat) (c : DirStat) : Nat × Nat :=
  (c.fc + ((childrenOf all c.path).map (fun x => (κ x.path).1)).sum,
   c.sz + ((childrenOf all c.path).map (fun x => (κ x.path).2)).sum)

/-- `DirectoryEntry` from `src/scanner.rs` (scanner view: the path as
its component list). -/
structure DirectoryEntry where
  path : Path
  file_count : Nat
  size_bytes : Nat
  cumulative_file_count : Nat
  cumulative_size_bytes : Nat
  entry_type : EntryType
deriving DecidableEq, Repr

/-- One `DirectoryEntry` from a registered directory's stats
(`cumulative_stats.get(&path).copied().unwrap_or((fc, sz))`). -/
def mkEntry (cum : List (Path × (Nat × Nat))) (d : DirStat) : DirectoryEntry :=
  { path := d.path, file_count := d.fc, size_bytes := d.sz,
    cumulative_file_count := ((alookup d.path cum).getD (d.fc, d.sz)).1,
    cumulative_size_bytes := ((alookup d.path cum).getD (d.fc, d.sz)).2,
    entry_type := if d.isTemp then .temp else .normal }

/-- Merge of direct and cumulative stats into entries. -/
def toEntries (stats : List DirStat) (cum : List (Path × (Nat × Nat))) :
    List DirectoryEntry :=
  stats.map (mkEntry cum)

/-- Final ordering: by cumulative size, descending. -/
def bySizeDesc (a b : DirectoryEntry) : Prop :=
  b.cumulative_size_bytes ≤ a.cumulative_size_bytes

instance : DecidableRel bySizeDesc := fun a b =>
  Nat.decLe b.cumulative_size_bytes a.cumulative_size_bytes

/-- `ScanError`: the only error `scan_directory` ever returns. -/
inductive ScanError where
  | pathNotFound
deriving DecidableEq, Repr

/-- `scan_directory` from `src/scanner.rs`.  `fs` is the directory
found at `root` (`none` when `root_path` does not exist; existence is
the first check).  Then: Passes 1 and 2 (`rawStats`), Pass 3 (`pass3`),
entry construction, the `temp_only` filter, and the size sort. -/
def scan_directory (root : Path) (fs : Option (List (String × FsTree)))
    (temp_only : Bool) : Except ScanError (List DirectoryEntry) :=
  match fs with
  | none => .error .pathNotFound
  | some es =>
    let stats := rawStats root false (.dir es)
    let entries := toEntries stats (pass3 stats)
    let entries := if temp_only
      then entries.filter (fun e => e.entry_type = .temp)
      else entries
    .ok (List.insertionSort bySizeDesc entries)

/-! ### Decimal round-trip lemmas -/

theorem isDigitCh_digitChar {d : Nat} (h : d < 10) : isDigitCh (digitChar d) = true := by
  interval_cases d <;> decide

theorem charVal_digitChar {d : Nat} (h : d < 10) : charVal (digitChar d) = d := by
  interval_cases d <;> decide

theorem natToStrAux_all_digits : ∀ fuel n, (natToStrAux fuel n).all isDigitCh = true := by
  intro fuel
  induction fuel with
  | zero => intro n; rfl
  | succ fuel ih =>
    intro n
    unfold natToStrAux
    by_cases hn : n = 0
    · simp [hn]
    · rw [if_neg hn, List.all_append]
      have hd : isDigitCh (digitChar (n % 10)) = true :=
        isDigitCh_digitChar (Nat.mod_lt n (by norm_num))
      simp [ih, hd]

theorem natToStrAux_ne_nil {fuel n : Nat} (hn : n ≠ 0) (h : n < fuel) :
    natToStrAux fuel n ≠ [] := by
  cases fuel with
  | zero => exact absurd h (Nat.not_lt_zero n)
  | succ fuel =>
    unfold natToStrAux
    rw [if_neg hn]
    simp

theorem natToStrAux_foldl : ∀ fuel n a, n < fuel →
    (natToStrAux fuel n).foldl (fun x c => x * 10 + charVal c) a
      = a * 10 ^ (natToStrAux fuel n).length + n := by
  intro fuel
  induction fuel with
  | zero => intro n a h; exact absurd h (Nat.not_lt_zero n)
  | succ fuel ih =>
    intro n a h
    by_cases hn : n = 0
    · subst hn; simp [natToStrAux]
    · have hdiv : n / 10 < fuel := by
        have h1 : n / 10 < n := Nat.div_lt_self (Nat.pos_of_ne_zero hn) (by norm_num)
        omega
      have hmod : charVal (digitChar (n % 10)) = n % 10 :=
        charVal_digitChar (Nat.mod_lt n (by norm_num))
      unfold natToStrAux
      rw [if_neg hn, List.foldl_append, List.length_append, ih (n / 10) a hdiv]
      simp only [List.foldl_cons, List.foldl_nil, List.length_cons, List.length_nil, hmod]
      have hdm : 10 * (n / 10) + n % 10 = n := Nat.div_add_mod n 10
      have hpow : 10 ^ ((natToStrAux fuel (n / 10)).length + (0 + 1))
          = 10 ^ (natToStrAux fuel (n / 10)).length * 10 := by
        rw [Nat.zero_add, pow_succ]
      rw [hpow]
      ring_nf
      omega

theorem ne_plus_of_isDigitCh {c : Char} (h : isDigitCh c = true) : c ≠ '+' := by
  intro hc
  rw [hc] at h
  exact absurd h (by decide)

theorem parseU64_natToStr {n : Nat} (h : n < 2 ^ 64) : parseU64 (natToStr n) = some n := by
  by_cases hn : n = 0
  · subst hn; decide
  · have hlt : n < n + 1 := Nat.lt_succ_self n
    have hne := natToStrAux_ne_nil hn hlt
    have hdig := natToStrAux_all_digits (n + 1) n
    have hdata : (natToStr n).data = natToStrAux (n + 1) n := by
      unfold natToStr; rw [if_neg hn]
    have hsp : stripPlus (natToStrAux (n + 1) n) = natToStrAux (n + 1) n := by
      cases hcs : natToStrAux (n + 1) n with
      | nil => rfl
      | cons c cs =>
        have hc : isDigitCh c = true := by
          rw [hcs] at hdig
          simp [List.all_cons] at hdig
          exact hdig.1
        have hstep : stripPlus (c :: cs) = if c = '+' then cs else c :: cs := rfl
        rw [hstep, if_neg (ne_plus_of_isDigitCh hc)]
    have hval : (natToStrAux (n + 1) n).foldl (fun a c => a * 10 + charVal c) 0 = n := by
      have := natToStrAux_foldl (n + 1) n 0 hlt
      simpa using this
    unfold parseU64
    simp only [hdata, hsp, if_neg hne, hdig, if_pos, hval, if_pos h]

/-! ### CSV round-trip and loader lemmas -/

theorem parseRow_writeRow (ln : Nat) (e : CsvEntry)
    (h1 : e.file_count < 2 ^ 64) (h2 : e.size_bytes < 2 ^ 64)
    (h3 : e.cumulative_file_count < 2 ^ 64) (h4 : e.cumulative_size_bytes < 2 ^ 64) :
    parseRow true ln (writeRow e) = .ok e := by
  obtain ⟨p, fc, sz, cfc, csz, et⟩ := e
  simp only [CsvEntry.file_count] at h1
  simp only [CsvEntry.size_bytes] at h2
  simp only [CsvEntry.cumulative_file_count] at h3
  simp only [CsvEntry.cumulative_size_bytes] at h4
  cases et <;>
    simp [parseRow, writeRow, entryTypeStr, parseField, List.getD,
      parseU64_natToStr h1, parseU64_natToStr h2, parseU64_natToStr h3,
      parseU64_natToStr h4, bind, Except.bind, pure, Except.pure]

theorem readRows_writeRows (entries : List CsvEntry) (ln : Nat)
    (hb : ∀ e ∈ entries, e.file_count < 2 ^ 64 ∧ e.size_bytes < 2 ^ 64 ∧
        e.cumulative_file_count < 2 ^ 64 ∧ e.cumulative_size_bytes < 2 ^ 64) :
    readRows true ln (entries.map writeRow) = .ok entries := by
  induction entries generalizing ln with
  | nil => rfl
  | cons e es ih =>
    have he := hb e (List.mem_cons_self e es)
    have hrow := parseRow_writeRow ln e he.1 he.2.1 he.2.2.1 he.2.2.2
    have hrest := ih (ln + 1) (fun x hx => hb x (List.mem_cons_of_mem e hx))
    simp [readRows, hrow, hrest, bind, Except.bind, pure, Except.pure]

theorem parseRow_old_cum {ln : Nat} {r : List String} {e : CsvEntry}
    (h : parseRow false ln r = .ok e) :
    e.cumulative_file_count = e.file_count ∧ e.cumulative_size_bytes = e.size_bytes := by
  unfold parseRow at h
  simp only [Bool.false_eq_true, if_false, bind, Except.bind, pure, Except.pure] at h
  split at h
  · simp at h
  · cases hfc : parseU64 (r.getD 1 "") with
    | none => rw [hfc] at h; simp [parseField] at h
    | some fc =>
      rw [hfc] at h
      cases hsz : parseU64 (r.getD 2 "") with
      | none => rw [hsz] at h; simp [parseField] at h
      | some sz =>
        rw [hsz] at h
        simp only [parseField] at h
        split at h
        · injection h with h
          subst h
          exact ⟨rfl, rfl⟩
        · split at h
          · injection h with h
            subst h
            exact ⟨rfl, rfl⟩
          · simp at h

theorem readRows_old_cum {rows : List (List String)} {ln : Nat} {l : List CsvEntry}
    (h : readRows false ln rows = .ok l) :
    ∀ e ∈ l, e.cumulative_file_count = e.file_count ∧ e.cumulative_size_bytes = e.size_bytes := by
  induction rows generalizing ln l with
  | nil =>
    injection h with h
    subst h
    intro e he
    exact absurd he (List.not_mem_nil e)
  | cons r rest ih =>
    simp only [readRows, bind, Except.bind] at h
    cases hp : parseRow false ln r with
    | error er => rw [hp] at h; simp at h
    | ok e0 =>
      rw [hp] at h
      cases hr : readRows false (ln + 1) rest with
      | error er => rw [hr] at h; simp at h
      | ok es =>
        rw [hr] at h
        simp only [pure, Except.pure] at h
        injection h with h
        subst h
        intro e he
        rcases List.mem_cons.mp he with he | he
        · subst he; exact parseRow_old_cum hp
        · exact ih hr e he

theorem readRows_prefix_error {hc : Bool} {pre : List (List String)} {bad : List String}
    {rest : List (List String)} {ln : Nat} {er : CsvError}
    (hpre : ∀ l r, r ∈ pre → ∃ e, parseRow hc l r = Except.ok e)
    (hbad : parseRow hc (ln + pre.length) bad = .error er) :
    readRows hc ln (pre ++ bad :: rest) = .error er := by
  induction pre generalizing ln with
  | nil =>
    simp only [List.length_nil, Nat.add_zero] at hbad
    simp [readRows, hbad, bind, Except.bind]
  | cons r pre' ih =>
    obtain ⟨e, he⟩ := hpre ln r (List.mem_cons_self r pre')
    have hrec : readRows hc (ln + 1) (pre' ++ bad :: rest) = .error er := by
      apply ih (fun l r' hr' => hpre l r' (List.mem_cons_of_mem r hr'))
      have : ln + 1 + pre'.length = ln + (r :: pre').length := by
        simp [List.length_cons]; omega
      rw [this]
      exact hbad
    simp [readRows, he, hrec, bind, Except.bind]

theorem parseRow_fileCount_error {hc : Bool} {ln : Nat} {r : List String}
    (hlen : ¬ r.length < (if hc then 6 else 4))
    (hbadnum : parseU64 (r.getD 1 "") = none) :
    parseRow hc ln r = .error (.parseError ln .fileCount) := by
  unfold parseRow
  simp only [bind, Except.bind, hbadnum, parseField]
  rw [if_neg hlen]

theorem parseRow_typeLit_error {hc : Bool} {ln : Nat} {r : List String} {n1 n2 n3 n4 : Nat}
    (hlen : ¬ r.length < (if hc then 6 else 4))
    (h1 : parseU64 (r.getD 1 "") = some n1)
    (h2 : parseU64 (r.getD 2 "") = some n2)
    (h3 : hc = true → parseU64 (r.getD 3 "") = some n3)
    (h4 : hc = true → parseU64 (r.getD 4 "") = some n4)
    (ht1 : r.getD (if hc then 5 else 3) "" ≠ "temp")
    (ht2 : r.getD (if hc then 5 else 3) "" ≠ "normal") :
    parseRow hc ln r = .error (.parseError ln .typeLit) := by
  cases hc with
  | false =>
    have hlen' : ¬ r.length < 4 := by simpa using hlen
    have ht1' : r.getD 3 "" ≠ "temp" := by simpa using ht1
    have ht2' : r.getD 3 "" ≠ "normal" := by simpa using ht2
    unfold parseRow
    simp only [bind, Except.bind, h1, h2, parseField, Bool.false_eq_true,
      if_false, pure, Except.pure]
    rw [if_neg hlen', if_neg ht1', if_neg ht2']
  | true =>
    have hlen' : ¬ r.length < 6 := by simpa using hlen
    have ht1' : r.getD 5 "" ≠ "temp" := by simpa using ht1
    have ht2' : r.getD 5 "" ≠ "normal" := by simpa using ht2
    unfold parseRow
    simp only [bind, Except.bind, h1, h2, h3 rfl, h4 rfl, parseField,
      if_true, pure, Except.pure]
    rw [if_neg hlen', if_neg ht1', if_neg ht2']

theorem read_csv_found_missing {header : List String} {rows : List (List String)}
    (hmiss : ∃ c ∈ requiredColumns, header.contains c = false) :
    ∃ c, c ∈ requiredColumns ∧ header.contains c = false ∧
      read_csv header rows = .error (.missingColumn c) := by
  obtain ⟨c0, hc0, hc0f⟩ := hmiss
  cases hfind : requiredColumns.find? (fun c => ! header.contains c) with
  | none =>
    rw [List.find?_eq_none] at hfind
    exact absurd (by rw [hc0f]; rfl) (hfind c0 hc0)
  | some c =>
    refine ⟨c, List.mem_of_find?_eq_some hfind, ?_, ?_⟩
    · have := List.find?_some hfind
      simpa using this
    · unfold read_csv
      rw [hfind]

theorem read_csv_skips_header {header : List String} {rows : List (List String)}
    (hfind : requiredColumns.find? (fun c => ! header.contains c) = none) :
    read_csv header rows = readRows (header.contains ("cumulative_files")) 2 rows := by
  unfold read_csv
  rw [hfind]

/-! ### Claim theorems: classifier, snapshot layer, failure semantics -/

/-- C3 counterexample: the claim says every catalog name with any
non-empty prefix classifies Normal, but the catalog itself contains
affixed variants of its own members: `"env"` is a catalog name, the
prefix `"."` is non-empty, yet `"." ++ "env" = ".env"` classifies
Temporary because `".env"` is also in the catalog. -/
theorem classifier_affix_cex :
    "env" ∈ tempCatalog ∧ is_temp_directory ("env") = true ∧
    ("." : String) ≠ "" ∧ is_temp_directory ("." ++ "env") = true := by
  constructor
  · decide
  · exact ⟨rfl, by decide, rfl⟩

/-- C3 amended: classification is pure exact-match against the catalog —
every catalog name classifies Temporary, and a catalog name with a
non-empty prefix or suffix classifies Normal unless the affixed string
is itself a catalog name (as happens for `"." ++ "env"`). -/
theorem classifier_exact_match_amended (name pre suf : String)
    (hname : name ∈ tempCatalog) :
    is_temp_directory name = true ∧
    ((pre ++ name) ∉ tempCatalog → is_temp_directory (pre ++ name) = false) ∧
    ((name ++ suf) ∉ tempCatalog → is_temp_directory (name ++ suf) = false) := by
  refine ⟨?_, ?_, ?_⟩
  · simpa [is_temp_directory] using hname
  · intro h
    simpa [is_temp_directory] using h
  · intro h
    simpa [is_temp_directory] using h

/-- C3 amended witness at the claim's own examples. -/
theorem classifier_exact_match_amended_witness :
    ("node_modules" ∈ tempCatalog) ∧
    (is_temp_directory ("node_modules") = true ∧
     (("my_" ++ "node_modules") ∉ tempCatalog →
        is_temp_directory ("my_" ++ "node_modules") = false) ∧
     (("node_modules" ++ "X") ∉ tempCatalog →
        is_temp_directory ("node_modules" ++ "X") = false)) :=
  ⟨by decide, classifier_exact_match_amended ("node_modules") ("my_") ("X") (by decide)⟩

/-- C10: the catalog contains the literal string `"*.egg-info"`; the
classifier matches it as characters, not as a glob, so the literal name
classifies Temporary while actual egg-info directory names such as
`"foo.egg-info"` classify Normal. -/
theorem egg_info_literal :
    "*.egg-info" ∈ tempCatalog ∧
    is_temp_directory ("*.egg-info") = true ∧
    is_temp_directory ("foo.egg-info") = false ∧
    is_temp_directory ("setuptools.egg-info") = false := by
  refine ⟨by decide, rfl, by decide, by decide⟩

/-- C5: `scan_directory` fails exactly when the root does not exist —
the check precedes any use of the tree — and it fails with
`PathNotFound`; for an existing root the scan succeeds for every tree,
in particular no matter how many unreadable (`err`) entries the
traversals meet. -/
theorem scan_error_iff_root_missing (root : Path)
    (fs : Option (List (String × FsTree))) (temp_only : Bool) :
    ((∃ er, scan_directory root fs temp_only = .error er) ↔ fs = none) ∧
    scan_directory root none temp_only = .error .pathNotFound := by
  refine ⟨⟨?_, ?_⟩, rfl⟩
  · rintro ⟨er, her⟩
    cases fs with
    | none => rfl
    | some es => simp [scan_directory] at her
  · rintro rfl
    exact ⟨.pathNotFound, rfl⟩

/-- C7: writing any entry sequence with `write_csv` and reading it back
with `read_csv` reproduces every entry field-for-field (entry values are
`u64` in the code, whence the bounds). -/
theorem csv_write_read_roundtrip (entries : List CsvEntry)
    (hb : ∀ e ∈ entries, e.file_count < 2 ^ 64 ∧ e.size_bytes < 2 ^ 64 ∧
        e.cumulative_file_count < 2 ^ 64 ∧ e.cumulative_size_bytes < 2 ^ 64) :
    read_csv (write_csv entries).1 (write_csv entries).2 = .ok entries := by
  have hskip : read_csv csvHeader (entries.map writeRow)
      = readRows true 2 (entries.map writeRow) := rfl
  show read_csv csvHeader (entries.map writeRow) = .ok entries
  rw [hskip]
  exact readRows_writeRows entries 2 hb

/-- C7 witness: a sequence with zero-valued and non-zero entries of both
types round-trips exactly. -/
theorem csv_write_read_roundtrip_witness :
    (∀ e ∈ ([⟨"", 0, 0, 0, 0, .normal⟩, ⟨"/home/u/p", 5, 1024, 6, 2048, .temp⟩] :
        List CsvEntry),
      e.file_count < 2 ^ 64 ∧ e.size_bytes < 2 ^ 64 ∧
      e.cumulative_file_count < 2 ^ 64 ∧ e.cumulative_size_bytes < 2 ^ 64) ∧
    read_csv
        (write_csv [⟨"", 0, 0, 0, 0, .normal⟩, ⟨"/home/u/p", 5, 1024, 6, 2048, .temp⟩]).1
        (write_csv [⟨"", 0, 0, 0, 0, .normal⟩, ⟨"/home/u/p", 5, 1024, 6, 2048, .temp⟩]).2
      = .ok [⟨"", 0, 0, 0, 0, .normal⟩, ⟨"/home/u/p", 5, 1024, 6, 2048, .temp⟩] :=
  ⟨by decide, csv_write_read_roundtrip _ (by decide)⟩

/-- C8: loading a snapshot whose header lacks the `cumulative_files`
column (the 4-column old schema) yields entries whose cumulative stats
equal their direct stats, copied verbatim. -/
theorem read_csv_old_schema_cumulative (header : List String)
    (rows : List (List String)) (l : List CsvEntry)
    (hnc : header.contains ("cumulative_files") = false)
    (h : read_csv header rows = .ok l) :
    ∀ e ∈ l, e.cumulative_file_count = e.file_count ∧
      e.cumulative_size_bytes = e.size_bytes := by
  cases hfind : requiredColumns.find? (fun c => ! header.contains c) with
  | some c =>
    unfold read_csv at h
    rw [hfind] at h
    simp at h
  | none =>
    rw [read_csv_skips_header hfind, hnc] at h
    exact readRows_old_cum h

/-- C8 witness on a concrete old-schema snapshot. -/
theorem read_csv_old_schema_cumulative_witness :
    ((["path", "files", "size_bytes", "type"] : List String).contains
        ("cumulative_files") = false) ∧
    (read_csv ["path", "files", "size_bytes", "type"] [["/t", "10", "100", "normal"]]
      = .ok [⟨"/t", 10, 100, 10, 100, .normal⟩]) ∧
    (∀ e ∈ ([⟨"/t", 10, 100, 10, 100, .normal⟩] : List CsvEntry),
      e.cumulative_file_count = e.file_count ∧ e.cumulative_size_bytes = e.size_bytes) :=
  ⟨by decide, rfl,
   read_csv_old_schema_cumulative ["path", "files", "size_bytes", "type"]
     [["/t", "10", "100", "normal"]] [⟨"/t", 10, 100, 10, 100, .normal⟩]
     (by decide) rfl⟩

/-- C9: `read_csv` (a) rejects a header missing one of the four common
columns with a missing-column error no matter what the rows are, (b)
fails on the first row whose file-count field is non-numeric with a
parse error carrying that row's line number, and (c) fails on a row
whose type literal is neither `"temp"` nor `"normal"` with a parse
error carrying that row's line number. -/
theorem read_csv_rejects_malformed :
    (∀ (header : List String) (rows : List (List String)),
      (∃ c ∈ requiredColumns, header.contains c = false) →
      ∃ c, c ∈ requiredColumns ∧ header.contains c = false ∧
        read_csv header rows = .error (.missingColumn c)) ∧
    (∀ (header : List String) (pre : List (List String)) (bad : List String)
        (rest : List (List String)),
      requiredColumns.find? (fun c => ! header.contains c) = none →
      (∀ l r, r ∈ pre →
        ∃ e, parseRow (header.contains ("cumulative_files")) l r = Except.ok e) →
      ¬ bad.length < (if header.contains ("cumulative_files") then 6 else 4) →
      parseU64 (bad.getD 1 "") = none →
      read_csv header (pre ++ bad :: rest)
        = .error (.parseError (2 + pre.length) .fileCount)) ∧
    (∀ (header : List String) (pre : List (List String)) (bad : List String)
        (rest : List (List String)) (n1 n2 n3 n4 : Nat),
      requiredColumns.find? (fun c => ! header.contains c) = none →
      (∀ l r, r ∈ pre →
        ∃ e, parseRow (header.contains ("cumulative_files")) l r = Except.ok e) →
      ¬ bad.length < (if header.contains ("cumulative_files") then 6 else 4) →
      parseU64 (bad.getD 1 "") = some n1 →
      parseU64 (bad.getD 2 "") = some n2 →
      (header.contains ("cumulative_files") = true → parseU64 (bad.getD 3 "") = some n3) →
      (header.contains ("cumulative_files") = true → parseU64 (bad.getD 4 "") = some n4) →
      bad.getD (if header.contains ("cumulative_files") then 5 else 3) "" ≠ "temp" →
      bad.getD (if header.contains ("cumulative_files") then 5 else 3) "" ≠ "normal" →
      read_csv header (pre ++ bad :: rest)
        = .error (.parseError (2 + pre.length) .typeLit)) := by
  refine ⟨?_, ?_, ?_⟩
  · intro header rows hmiss
    exact read_csv_found_missing hmiss
  · intro header pre bad rest hfind hpre hlen hbad
    rw [read_csv_skips_header hfind]
    exact readRows_prefix_error hpre (parseRow_fileCount_error hlen hbad)
  · intro header pre bad rest n1 n2 n3 n4 hfind hpre hlen h1 h2 h3 h4 ht1 ht2
    rw [read_csv_skips_header hfind]
    exact readRows_prefix_error hpre
      (parseRow_typeLit_error hlen h1 h2 h3 h4 ht1 ht2)

/-- C9 witness: a header missing `type`, a second row with file count
`"abc"` reported at line 3, and a row with type `"weird"` reported at
line 2, on concrete snapshots. -/
theorem read_csv_rejects_malformed_witness :
    (∃ c, c ∈ requiredColumns ∧ (["path", "files"] : List String).contains c = false ∧
      read_csv ["path", "files"] [["/t", "1"]] = .error (.missingColumn c)) ∧
    read_csv ["path", "files", "size_bytes", "type"]
        [["/ok", "1", "2", "normal"], ["/x", "abc", "3", "normal"]]
      = .error (.parseError 3 .fileCount) ∧
    read_csv ["path", "files", "size_bytes", "type"] [["/y", "1", "2", "weird"]]
      = .error (.parseError 2 .typeLit) := by
  refine ⟨?_, ?_, ?_⟩
  · exact read_csv_rejects_malformed.1 _ _ ⟨"type", by decide, by decide⟩
  · have h := read_csv_rejects_malformed.2.1
      ["path", "files", "size_bytes", "type"] [["/ok", "1", "2", "normal"]]
      ["/x", "abc", "3", "normal"] [] (by decide)
      (fun l r hr => by
        rw [List.mem_singleton] at hr
        subst hr
        exact ⟨⟨"/ok", 1, 2, 1, 2, .normal⟩, rfl⟩)
      (by decide) (by decide)
    simpa using h
  · have h := read_csv_rejects_malformed.2.2
      ["path", "files", "size_bytes", "type"] [] ["/y", "1", "2", "weird"] [] 1 2 0 0
      (by decide)
      (fun l r hr => absurd hr (List.not_mem_nil r))
      (by decide) (by decide) (by decide)
      (fun hcf => absurd hcf (by decide))
      (fun hcf => absurd hcf (by decide))
      (by decide) (by decide)
    simpa using h

/-! ### Claim counterexamples on concrete scans -/

/-- C1 counterexample: with `temp_only = true` the filtered result
violates the child-sum law.  Scanning `r/tmp/a/node_modules/f` (1 byte)
keeps only the two temp entries; `r/tmp` reports cumulative size 2
(its own Pass 2 subtree total 1 plus the nested temp's 1, the known
double count), but its direct size is 1 and no entry in the result has
parent path `r/tmp` (the surviving child's parent is `r/tmp/a`), so the
claimed equation demands 1. -/
theorem scan_child_sum_cex :
    scan_directory (["r"])
        (some [("tmp", .dir [("a", .dir [("node_modules", .dir [("f", .file 1)])])])])
        true
      = .ok [⟨["r", "tmp"], 1, 1, 2, 2, .temp⟩,
             ⟨["r", "tmp", "a", "node_modules"], 1, 1, 1, 1, .temp⟩] ∧
    ∃ e ∈ ([⟨["r", "tmp"], 1, 1, 2, 2, .temp⟩,
            ⟨["r", "tmp", "a", "node_modules"], 1, 1, 1, 1, .temp⟩] :
          List DirectoryEntry),
      e.cumulative_size_bytes ≠ e.size_bytes +
        (((([⟨["r", "tmp"], 1, 1, 2, 2, .temp⟩,
             ⟨["r", "tmp", "a", "node_modules"], 1, 1, 1, 1, .temp⟩] :
           List DirectoryEntry).filter
            (fun x => parentPath x.path = some e.path)).map
          (fun x => x.cumulative_size_bytes)).sum) := by
  refine ⟨rfl, ?_⟩
  decide

/-- C2 counterexample: a Temp directory with another Temp directory
nested inside it does not collapse: scanning `r/dist/node_modules/f`
(1 byte), the `r/dist` entry is Temp with `size_bytes = 1` but
`cumulative_size_bytes = 2` — Pass 3 adds the nested temp's cumulative
total on top of Pass 2's full-subtree sum, double-counting it. -/
theorem temp_collapse_cex :
    scan_directory (["r"])
        (some [("dist", .dir [("node_modules", .dir [("f", .file 1)])])]) false
      = .ok [⟨["r"], 0, 0, 2, 2, .normal⟩,
             ⟨["r", "dist"], 1, 1, 2, 2, .temp⟩,
             ⟨["r", "dist", "node_modules"], 1, 1, 1, 1, .temp⟩] ∧
    ∃ e ∈ ([⟨["r"], 0, 0, 2, 2, .normal⟩,
            ⟨["r", "dist"], 1, 1, 2, 2, .temp⟩,
            ⟨["r", "dist", "node_modules"], 1, 1, 1, 1, .temp⟩] :
          List DirectoryEntry),
      e.entry_type = .temp ∧
      (e.size_bytes ≠ e.cumulative_size_bytes ∨
       e.file_count ≠ e.cumulative_file_count) := by
  refine ⟨rfl, ?_⟩
  decide

/-- C4 counterexample: the per-file ancestor walk in Pass 1 checks the
root's own name before stopping.  Scanning a root whose name is
`node_modules` containing `a/f` (5 bytes): every ancestor strictly
between `f` and the root (just `a`) is Normal, so the claim demands
`a`'s direct stats be 1 file / 5 bytes, yet the code flags the file as
inside a temp directory and `a`'s entry carries 0 / 0. -/
theorem pass1_root_temp_cex :
    scan_directory (["node_modules"]) (some [("a", .dir [("f", .file 5)])]) false
      = .ok [⟨["node_modules"], 1, 5, 1, 5, .temp⟩,
             ⟨["node_modules", "a"], 0, 0, 0, 0, .normal⟩] ∧
    ∃ e ∈ ([⟨["node_modules"], 1, 5, 1, 5, .temp⟩,
            ⟨["node_modules", "a"], 0, 0, 0, 0, .normal⟩] :
          List DirectoryEntry),
      e.path = ["node_modules", "a"] ∧ e.file_count = 0 ∧ e.size_bytes = 0 := by
  refine ⟨rfl, ?_⟩
  decide

/-- C6 counterexample: with `config.temp_only = true` and a root that is
not temp-classified, the root entry is filtered out — scanning an empty
normal root yields an empty result, with no entry for the root path. -/
theorem root_entry_cex :
    FsTree.wfList [] = true ∧
    scan_directory (["r"]) (some []) true = .ok ([] : List DirectoryEntry) := by
  exact ⟨rfl, rfl⟩

/-! ### Path-order helpers -/

theorem pref_refl (a : Path) : a <+: a := ⟨[], List.append_nil a⟩

theorem pref_append (a b : Path) : a <+: a ++ b := ⟨b, rfl⟩

theorem pref_trans {a b c : Path} (h1 : a <+: b) (h2 : b <+: c) : a <+: c := by
  obtain ⟨x, rfl⟩ := h1
  obtain ⟨y, rfl⟩ := h2
  exact ⟨x ++ y, by rw [List.append_assoc]⟩

theorem pref_length {a b : Path} (h : a <+: b) : a.length ≤ b.length := by
  obtain ⟨x, rfl⟩ := h
  simp

theorem pref_eq_of_length {a b c : Path} (h1 : a <+: c) (h2 : b <+: c)
    (h : a.length = b.length) : a = b := by
  obtain ⟨x, rfl⟩ := h1
  obtain ⟨y, hy⟩ := h2
  exact ((List.append_inj hy h.symm).1).symm

theorem parentPath_pref {q p : Path} (h : parentPath q = some p) :
    p <+: q ∧ q ≠ p := by
  cases q with
  | nil => simp [parentPath] at h
  | cons a as =>
    have hp : p = (a :: as).dropLast := by
      simpa [parentPath] using h.symm
    subst hp
    constructor
    · exact ⟨[(a :: as).getLast (by simp)], List.dropLast_append_getLast (by simp)⟩
    · intro he
      have := congrArg List.length he
      simp [List.length_dropLast] at this

/-! ### Structure of the registered-directory list -/

theorem rawStats_dir (p : Path) (anc : Bool) (es : List (String × FsTree)) :
    rawStats p anc (.dir es) =
      ⟨p, isTempPath p,
        (if isTempPath p then subtreeCountList es
         else if anc || isTempPath p then (0, 0) else directStats es).1,
        (if isTempPath p then subtreeCountList es
         else if anc || isTempPath p then (0, 0) else directStats es).2⟩ ::
      rawStatsList p (anc || isTempPath p) es := rfl

theorem rawStatsList_shape :
    ∀ (es : List (String × FsTree)) (p : Path) (anc : Bool) (d : DirStat),
      d ∈ rawStatsList p anc es → ∃ n c, (n, c) ∈ es ∧ d ∈ rawStats (p ++ [n]) anc c := by
  intro es
  induction es with
  | nil => intro p anc d hd; simp [rawStatsList] at hd
  | cons e rest ih =>
    intro p anc d hd
    obtain ⟨n, c⟩ := e
    simp only [rawStatsList] at hd
    rcases List.mem_append.mp hd with h | h
    · exact ⟨n, c, List.mem_cons_self _ _, h⟩
    · obtain ⟨n', c', hm, hd'⟩ := ih p anc d h
      exact ⟨n', c', List.mem_cons_of_mem _ hm, hd'⟩

theorem rawStats_mem_pref :
    ∀ (t : FsTree) (p : Path) (anc : Bool) (d : DirStat),
      d ∈ rawStats p anc t → p <+: d.path := by
  refine FsTree.wf.induct
    (fun t => ∀ p anc d, d ∈ rawStats p anc t → p <+: d.path)
    (fun es => ∀ n c, (n, c) ∈ es → ∀ p anc d, d ∈ rawStats p anc c → p <+: d.path)
    ?_ ?_ ?_ ?_ ?_
  · intro s p anc d hd
    simp [rawStats] at hd
  · intro p anc d hd
    simp [rawStats] at hd
  · intro es ih p anc d hd
    rw [rawStats_dir] at hd
    rcases List.mem_cons.mp hd with h | h
    · subst h
      exact pref_refl p
    · obtain ⟨n, c, hm, hd'⟩ := rawStatsList_shape es p _ d h
      exact pref_trans (pref_append p [n]) (ih n c hm (p ++ [n]) _ d hd')
  · intro n c h
    simp at h
  · intro fst c rest ih1 ih2 n c' h
    rcases List.mem_cons.mp h with h | h
    · cases h
      exact ih1
    · exact ih2 n c' h

theorem rawStats_anc_zero :
    ∀ (t : FsTree) (p : Path) (d : DirStat),
      d ∈ rawStats p true t → d.isTemp = false → d.fc = 0 ∧ d.sz = 0 := by
  refine FsTree.wf.induct
    (fun t => ∀ p d, d ∈ rawStats p true t → d.isTemp = false → d.fc = 0 ∧ d.sz = 0)
    (fun es => ∀ n c, (n, c) ∈ es →
      ∀ p d, d ∈ rawStats p true c → d.isTemp = false → d.fc = 0 ∧ d.sz = 0)
    ?_ ?_ ?_ ?_ ?_
  · intro s p d hd
    simp [rawStats] at hd
  · intro p d hd
    simp [rawStats] at hd
  · intro es ih p d hd htmp
    rw [rawStats_dir] at hd
    rcases List.mem_cons.mp hd with h | h
    · subst h
      simp only [DirStat.isTemp] at htmp
      simp [htmp]
    · simp only [Bool.true_or] at h
      obtain ⟨n, c, hm, hd'⟩ := rawStatsList_shape es p true d h
      exact ih n c hm (p ++ [n]) d hd' htmp
  · intro n c h
    simp at h
  · intro fst c rest ih1 ih2 n c' h
    rcases List.mem_cons.mp h with h | h
    · cases h
      exact ih1
    · exact ih2 n c' h

theorem wfList_cons {n : String} {c : FsTree} {rest : List (String × FsTree)}
    (h : FsTree.wfList ((n, c) :: rest) = true) :
    FsTree.wf c = true ∧ FsTree.wfList rest = true := by
  simpa [FsTree.wfList, Bool.and_eq_true] using h

theorem wf_dir_parts {es : List (String × FsTree)} (h : FsTree.wf (.dir es) = true) :
    (es.map (fun e => e.1)).Nodup ∧ FsTree.wfList es = true := by
  have := h
  simp only [FsTree.wf, Bool.and_eq_true, decide_eq_true_eq] at this
  exact this

theorem names_inj {es : List (String × FsTree)}
    (hnames : (es.map (fun e => e.1)).Nodup) {n : String} {c c' : FsTree}
    (h1 : (n, c) ∈ es) (h2 : (n, c') ∈ es) : c = c' := by
  have := List.inj_on_of_nodup_map hnames h1 h2 rfl
  exact congrArg Prod.snd this

theorem rawStatsList_nodup :
    ∀ (es : List (String × FsTree)) (p : Path) (anc : Bool),
      (∀ n c, (n, c) ∈ es → FsTree.wf c = true →
        ∀ p' anc', ((rawStats p' anc' c).map (fun d => d.path)).Nodup) →
      FsTree.wfList es = true → (es.map (fun e => e.1)).Nodup →
      ((rawStatsList p anc es).map (fun d => d.path)).Nodup := by
  intro es
  induction es with
  | nil => intro p anc _ _ _; simp [rawStatsList]
  | cons e rest ih =>
    intro p anc hchild hwfl hnames
    obtain ⟨n, c⟩ := e
    obtain ⟨hwfc, hwfrest⟩ := wfList_cons hwfl
    have hnames' : (rest.map (fun e => e.1)).Nodup := (List.nodup_cons.mp hnames).2
    have hnotin : n ∉ rest.map (fun e => e.1) := (List.nodup_cons.mp hnames).1
    simp only [rawStatsList, List.map_append]
    rw [List.nodup_append]
    refine ⟨hchild n c (List.mem_cons_self _ _) hwfc _ _, ?_, ?_⟩
    · exact ih p anc (fun n' c' hm => hchild n' c' (List.mem_cons_of_mem _ hm)) hwfrest hnames'
    · intro q hq hq'
      obtain ⟨d, hd, rfl⟩ := List.mem_map.mp hq
      obtain ⟨d', hd', hdq⟩ := List.mem_map.mp hq'
      obtain ⟨n', c', hm', hd''⟩ := rawStatsList_shape rest p anc d' hd'
      have hp1 : (p ++ [n]) <+: d.path := rawStats_mem_pref c (p ++ [n]) anc d hd
      have hp2 : (p ++ [n']) <+: d.path :=
        hdq ▸ rawStats_mem_pref c' (p ++ [n']) anc d' hd''
      have heq : p ++ [n] = p ++ [n'] :=
        pref_eq_of_length hp1 hp2 (by simp)
      have : n = n' := by
        have := List.append_inj_right heq rfl
        injection this
      subst this
      exact hnotin (List.mem_map.mpr ⟨(n, c'), hm', rfl⟩)

theorem rawStats_nodup :
    ∀ (t : FsTree), FsTree.wf t = true → ∀ (p : Path) (anc : Bool),
      ((rawStats p anc t).map (fun d => d.path)).Nodup := by
  refine FsTree.wf.induct
    (fun t => FsTree.wf t = true → ∀ p anc,
      ((rawStats p anc t).map (fun d => d.path)).Nodup)
    (fun es => ∀ n c, (n, c) ∈ es → FsTree.wf c = true →
      ∀ p anc, ((rawStats p anc c).map (fun d => d.path)).Nodup)
    ?_ ?_ ?_ ?_ ?_
  · intro s _ p anc
    simp [rawStats]
  · intro _ p anc
    simp [rawStats]
  · intro es ih hwf p anc
    obtain ⟨hnames, hwfl⟩ := wf_dir_parts hwf
    rw [rawStats_dir]
    simp only [List.map_cons]
    rw [List.nodup_cons]
    constructor
    · intro hin
      obtain ⟨d, hd, hdp⟩ := List.mem_map.mp hin
      obtain ⟨n, c, hm, hd'⟩ := rawStatsList_shape es p _ d hd
      have hp1 : (p ++ [n]) <+: d.path := rawStats_mem_pref c (p ++ [n]) _ d hd'
      have := pref_length hp1
      rw [hdp] at this
      simp at this
    · exact rawStatsList_nodup es p _ ih hwfl hnames
  · intro n c h
    simp at h
  · intro fst c rest ih1 ih2 n c' h
    rcases List.mem_cons.mp h with h | h
    · cases h
      exact fun hwf => ih1 hwf
    · exact ih2 n c' h

theorem wfList_mem :
    ∀ {es : List (String × FsTree)}, FsTree.wfList es = true →
      ∀ {n : String} {c : FsTree}, (n, c) ∈ es → FsTree.wf c = true := by
  intro es
  induction es with
  | nil => intro _ n c hm; simp at hm
  | cons e rest ih =>
    intro h n c hm
    obtain ⟨n0, c0⟩ := e
    obtain ⟨hc0, hrest⟩ := wfList_cons h
    rcases List.mem_cons.mp hm with hm | hm
    · cases hm
      exact hc0
    · exact ih hrest hm

theorem rawStats_below_temp_zero :
    ∀ (t : FsTree), FsTree.wf t = true → ∀ (p : Path) (anc : Bool) (d e : DirStat),
      d ∈ rawStats p anc t → e ∈ rawStats p anc t → d.isTemp = true →
      d.path <+: e.path → e.path ≠ d.path → e.isTemp = false →
      e.fc = 0 ∧ e.sz = 0 := by
  refine FsTree.wf.induct
    (fun t => FsTree.wf t = true → ∀ p anc d e,
      d ∈ rawStats p anc t → e ∈ rawStats p anc t → d.isTemp = true →
      d.path <+: e.path → e.path ≠ d.path → e.isTemp = false →
      e.fc = 0 ∧ e.sz = 0)
    (fun es => ∀ n c, (n, c) ∈ es → FsTree.wf c = true → ∀ p anc d e,
      d ∈ rawStats p anc c → e ∈ rawStats p anc c → d.isTemp = true →
      d.path <+: e.path → e.path ≠ d.path → e.isTemp = false →
      e.fc = 0 ∧ e.sz = 0)
    ?_ ?_ ?_ ?_ ?_
  · intro s _ p anc d e hd
    simp [rawStats] at hd
  · intro _ p anc d e hd
    simp [rawStats] at hd
  · intro es ih hwf p anc d e hd he htmp hpref hne hent
    obtain ⟨hnames, hwfl⟩ := wf_dir_parts hwf
    rw [rawStats_dir] at hd he
    rcases List.mem_cons.mp hd with hdh | hdl
    · -- d is the directory at `p` itself, and it is temp: everything in
      -- the child lists is walked with anc = true
      have hptmp : isTempPath p = true := by
        rw [hdh] at htmp
        exact htmp
      rcases List.mem_cons.mp he with heh | hel
      · exfalso
        rw [hdh] at hne
        rw [heh] at hne
        exact hne rfl
      · rw [hptmp, Bool.or_true] at hel
        obtain ⟨n, c, hm, he'⟩ := rawStatsList_shape es p true e hel
        exact rawStats_anc_zero c (p ++ [n]) e he' hent
    · -- d lies inside some child subtree
      obtain ⟨n, c, hm, hd'⟩ := rawStatsList_shape es p _ d hdl
      have hdp : (p ++ [n]) <+: d.path := rawStats_mem_pref c (p ++ [n]) _ d hd'
      rcases List.mem_cons.mp he with heh | hel
      · -- e would be the node at `p`, but e extends d which extends p ++ [n]
        exfalso
        have h1 := pref_length hdp
        have h2 := pref_length hpref
        rw [heh] at h2
        simp only [DirStat.path] at h2
        have hlen : (p ++ [n]).length = p.length + 1 := by simp
        omega
      · obtain ⟨n', c', hm', he'⟩ := rawStatsList_shape es p _ e hel
        have hep : (p ++ [n']) <+: e.path := rawStats_mem_pref c' (p ++ [n']) _ e he'
        have hdep : (p ++ [n]) <+: e.path := pref_trans hdp hpref
        have heqn : p ++ [n] = p ++ [n'] := pref_eq_of_length hdep hep (by simp)
        have hnn : n = n' := by
          have := List.append_inj_right heqn rfl
          injection this
        subst hnn
        have hcc : c = c' := names_inj hnames hm hm'
        subst hcc
        exact ih n c hm (wfList_mem hwfl hm) (p ++ [n]) _ d e hd' he' htmp hpref hne hent
  · intro n c h
    simp at h
  · intro fst c rest ih1 ih2 n c' h
    rcases List.mem_cons.mp h with h | h
    · cases h
      exact ih1
    · exact ih2 n c' h

/-! ### Pass 3: the bottom-up aggregation invariant -/

theorem alookup_append_some {acc : List (Path × (Nat × Nat))} {k : Path} {v : Nat × Nat}
    (h : alookup k acc = some v) (ys : List (Path × (Nat × Nat))) :
    alookup k (acc ++ ys) = some v := by
  induction acc with
  | nil => simp [alookup] at h
  | cons e rest ih =>
    obtain ⟨k0, v0⟩ := e
    simp only [alookup, List.cons_append] at h ⊢
    by_cases hk : k0 = k
    · rw [if_pos hk] at h ⊢
      exact h
    · rw [if_neg hk] at h ⊢
      exact ih h

theorem alookup_append_none {acc : List (Path × (Nat × Nat))} {k : Path}
    (h : alookup k acc = none) (ys : List (Path × (Nat × Nat))) :
    alookup k (acc ++ ys) = alookup k ys := by
  induction acc with
  | nil => rfl
  | cons e rest ih =>
    obtain ⟨k0, v0⟩ := e
    simp only [alookup, List.cons_append] at h ⊢
    by_cases hk : k0 = k
    · rw [if_pos hk] at h
      simp at h
    · rw [if_neg hk] at h ⊢
      exact ih h

theorem alookup_single_eq (k : Path) (v : Nat × Nat) :
    alookup k [(k, v)] = some v := by
  simp [alookup]

theorem alookup_single_ne {k k' : Path} (h : k' ≠ k) (v : Nat × Nat) :
    alookup k [(k', v)] = none := by
  simp [alookup, h]

theorem parentPath_length {q p : Path} (h : parentPath q = some p) :
    q.length = p.length + 1 := by
  cases q with
  | nil => simp [parentPath] at h
  | cons a as =>
    have hp : p = (a :: as).dropLast := by
      simpa [parentPath] using h.symm
    subst hp
    simp [List.length_dropLast]

theorem foldl_childAdd (all : List DirStat) (acc : List (Path × (Nat × Nat))) (p : Path) :
    ∀ (x y : Nat), all.foldl (childAdd acc p) (x, y)
      = (x + ((childrenOf all p).map (fun c => (cumLookup acc c.path).1)).sum,
         y + ((childrenOf all p).map (fun c => (cumLookup acc c.path).2)).sum) := by
  induction all with
  | nil => intro x y; simp [childrenOf, cumLookup]
  | cons c rest ih =>
    intro x y
    by_cases hc : parentPath c.path = some p ∧ c.path ≠ p
    · have hstep : childAdd acc p (x, y) c
          = (x + (cumLookup acc c.path).1, y + (cumLookup acc c.path).2) := by
        unfold childAdd cumLookup
        rw [if_pos hc]
        cases alookup c.path acc with
        | none => simp
        | some v => simp
      have hfil : childrenOf (c :: rest) p = c :: childrenOf rest p := by
        simp [childrenOf, List.filter_cons, hc]
      rw [List.foldl_cons, hstep, ih, hfil]
      simp only [List.map_cons, List.sum_cons]
      rw [Nat.add_assoc, Nat.add_assoc]
    · have hstep : childAdd acc p (x, y) c = (x, y) := by
        unfold childAdd
        rw [if_neg hc]
      have hfil : childrenOf (c :: rest) p = childrenOf rest p := by
        simp [childrenOf, List.filter_cons, hc]
      rw [List.foldl_cons, hstep, ih, hfil]

theorem pass3go_stable (all : List DirStat) :
    ∀ (todo : List DirStat) (acc : List (Path × (Nat × Nat))) (k : Path) (v : Nat × Nat),
      alookup k acc = some v → alookup k (pass3go all acc todo) = some v := by
  intro todo
  induction todo with
  | nil => intro acc k v h; exact h
  | cons d rest ih =>
    intro acc k v h
    simp only [pass3go]
    exact ih _ k v (alookup_append_some h _)

theorem pass3go_spec (all : List DirStat)
    (hnd : (all.map (fun d => d.path)).Nodup) :
    ∀ (todo : List DirStat) (acc : List (Path × (Nat × Nat))),
      (∀ x ∈ todo, x ∈ all) →
      (todo.map (fun d => d.path)).Nodup →
      todo.Pairwise depthGe →
      (∀ c ∈ all, c.path ∈ todo.map (fun d => d.path) ∨ ∃ v, alookup c.path acc = some v) →
      (∀ k ∈ todo.map (fun d => d.path), alookup k acc = none) →
      (∀ c ∈ all, ∀ v, alookup c.path acc = some v →
        v = cumFormula all (cumLookup acc) c) →
      (∀ c ∈ all, (∃ v, alookup c.path acc = some v) →
        ∀ x ∈ childrenOf all c.path, ∃ w, alookup x.path acc = some w) →
      ∀ c ∈ all, ∃ v, alookup c.path (pass3go all acc todo) = some v ∧
        v = cumFormula all (cumLookup (pass3go all acc todo)) c := by
  intro todo
  induction todo with
  | nil =>
    intro acc _ _ _ hcov _ hcorr _ c hc
    rcases hcov c hc with h | ⟨v, hv⟩
    · simp at h
    · exact ⟨v, hv, hcorr c hc v hv⟩
  | cons d rest ih =>
    intro acc hsub hndtodo hpair hcov hdisj hcorr hchildproc
    have hd_all : d ∈ all := hsub d (List.mem_cons_self _ _)
    have hd_none : alookup d.path acc = none :=
      hdisj d.path (List.mem_map.mpr ⟨d, List.mem_cons_self _ _, rfl⟩)
    -- every child of `d` is already computed in `acc`
    have hdchild : ∀ x ∈ childrenOf all d.path, ∃ w, alookup x.path acc = some w := by
      intro x hx
      have hx' := List.mem_filter.mp hx
      have hxp : parentPath x.path = some d.path ∧ x.path ≠ d.path := by
        simpa using hx'.2
      rcases hcov x hx'.1 with hmem | hsome
      · exfalso
        obtain ⟨r, hr, hrp⟩ := List.mem_map.mp hmem
        rcases List.mem_cons.mp hr with hr | hr
        · subst hr
          exact hxp.2 hrp.symm
        · have hlen : x.path.length = d.path.length + 1 := parentPath_length hxp.1
          have hge : depthGe d r := (List.pairwise_cons.mp hpair).1 r hr
          unfold depthGe at hge
          rw [hrp] at hge
          omega
      · exact hsome
    -- the value appended for `d`
    have hsval : all.foldl (childAdd acc d.path) (d.fc, d.sz)
        = cumFormula all (cumLookup acc) d := by
      rw [foldl_childAdd]
      rfl
    set s := all.foldl (childAdd acc d.path) (d.fc, d.sz) with hs
    set acc' := acc ++ [(d.path, s)] with hacc'
    have hd_some : alookup d.path acc' = some s := by
      rw [hacc', alookup_append_none hd_none, alookup_single_eq]
    -- lookups of already-computed keys are unchanged in acc'
    have hkeep : ∀ k v, alookup k acc = some v → alookup k acc' = some v := by
      intro k v h
      rw [hacc']
      exact alookup_append_some h _
    -- paths still to process are still not computed in acc'
    have hdisj' : ∀ k ∈ rest.map (fun x => x.path), alookup k acc' = none := by
      intro k hk
      have hk0 : alookup k acc = none :=
        hdisj k (by
          obtain ⟨r, hr, hrp⟩ := List.mem_map.mp hk
          exact List.mem_map.mpr ⟨r, List.mem_cons_of_mem _ hr, hrp⟩)
      have hkd : k ≠ d.path := by
        intro hkd
        simp only [List.map_cons, List.nodup_cons] at hndtodo
        rw [hkd] at hk
        exact hndtodo.1 hk
      rw [hacc', alookup_append_none hk0, alookup_single_ne (Ne.symm hkd)]
    -- membership in acc' splits
    have hsplit : ∀ k v, alookup k acc' = some v →
        alookup k acc = some v ∨ (k = d.path ∧ v = s) := by
      intro k v h
      cases hka : alookup k acc with
      | some w =>
        left
        rw [hkeep k w hka] at h
        injection h with h
        rw [← h]
      | none =>
        right
        rw [hacc', alookup_append_none hka] at h
        by_cases hkd : d.path = k
        · subst hkd
          rw [alookup_single_eq] at h
          injection h with h
          exact ⟨rfl, h.symm⟩
        · rw [alookup_single_ne hkd s] at h
          simp at h
    -- cumLookup is unchanged on computed keys
    have hcum_keep : ∀ c ∈ all, (∃ v, alookup c.path acc = some v) →
        cumFormula all (cumLookup acc') c = cumFormula all (cumLookup acc) c := by
      intro c hc hv
      unfold cumFormula
      have hmap1 : ∀ g : Nat × Nat → Nat,
          (childrenOf all c.path).map (fun x => g (cumLookup acc' x.path))
            = (childrenOf all c.path).map (fun x => g (cumLookup acc x.path)) := by
        intro g
        apply List.map_congr_left
        intro x hx
        obtain ⟨w, hw⟩ := hchildproc c hc hv x hx
        unfold cumLookup
        rw [hw, hkeep x.path w hw]
      rw [hmap1 (fun v => v.1), hmap1 (fun v => v.2)]
    -- children of d keep their values, so d's formula is unchanged too
    have hcum_keep_d : cumFormula all (cumLookup acc') d = cumFormula all (cumLookup acc) d := by
      unfold cumFormula
      have hmap1 : ∀ g : Nat × Nat → Nat,
          (childrenOf all d.path).map (fun x => g (cumLookup acc' x.path))
            = (childrenOf all d.path).map (fun x => g (cumLookup acc x.path)) := by
        intro g
        apply List.map_congr_left
        intro x hx
        obtain ⟨w, hw⟩ := hdchild x hx
        unfold cumLookup
        rw [hw, hkeep x.path w hw]
      rw [hmap1 (fun v => v.1), hmap1 (fun v => v.2)]
    -- re-establish the invariants and apply the induction hypothesis
    refine ih acc'
      (fun x hx => hsub x (List.mem_cons_of_mem _ hx))
      (by
        have := hndtodo
        simp only [List.map_cons] at this
        exact (List.nodup_cons.mp this).2)
      ((List.pairwise_cons.mp hpair).2)
      ?_ hdisj' ?_ ?_
    · intro c hc
      rcases hcov c hc with hmem | ⟨v, hv⟩
      · simp only [List.map_cons] at hmem
        rcases List.mem_cons.mp hmem with hmem | hmem
        · right
          rw [hmem]
          exact ⟨s, hd_some⟩
        · left
          exact hmem
      · right
        exact ⟨v, hkeep c.path v hv⟩
    · intro c hc v hv
      rcases hsplit c.path v hv with hold | ⟨hkd, hvs⟩
      · rw [hcum_keep c hc ⟨v, hold⟩]
        exact hcorr c hc v hold
      · have hcd : c = d := by
          apply List.inj_on_of_nodup_map hnd hc hd_all
          exact hkd
        subst hcd
        rw [hvs, hsval, hcum_keep_d]
    · intro c hc hv x hx
      obtain ⟨v, hv'⟩ := hv
      rcases hsplit c.path v hv' with hold | ⟨hkd, _⟩
      · obtain ⟨w, hw⟩ := hchildproc c hc ⟨v, hold⟩ x hx
        exact ⟨w, hkeep x.path w hw⟩
      · have hcd : c = d := by
          apply List.inj_on_of_nodup_map hnd hc hd_all
          exact hkd
        subst hcd
        obtain ⟨w, hw⟩ := hdchild x hx
        exact ⟨w, hkeep x.path w hw⟩

theorem pass3_spec (stats : List DirStat)
    (hnd : (stats.map (fun d => d.path)).Nodup) :
    ∀ c ∈ stats, ∃ v, alookup c.path (pass3 stats) = some v ∧
      v = cumFormula stats (cumLookup (pass3 stats)) c := by
  have hperm := List.perm_insertionSort depthGe stats
  refine pass3go_spec stats hnd (List.insertionSort depthGe stats) []
    (fun x hx => hperm.mem_iff.mp hx)
    (by
      have := hperm.map (fun d => d.path)
      exact this.nodup_iff.mpr hnd)
    (List.sorted_insertionSort depthGe stats)
    (fun c hc => Or.inl (List.mem_map.mpr ⟨c, hperm.mem_iff.mpr hc, rfl⟩))
    (fun k _ => rfl)
    (fun c _ v hv => by simp [alookup] at hv)
    (fun c _ hv => by
      obtain ⟨v, hv'⟩ := hv
      simp [alookup] at hv')

/-! ### From the aggregation invariant to scan results -/

theorem scan_ok_elim {root : Path} {es : List (String × FsTree)} {temp_only : Bool}
    {l : List DirectoryEntry}
    (h : scan_directory root (some es) temp_only = .ok l) :
    l = List.insertionSort bySizeDesc
      (if temp_only
        then (toEntries (rawStats root false (.dir es))
            (pass3 (rawStats root false (.dir es)))).filter
          (fun e => e.entry_type = .temp)
        else toEntries (rawStats root false (.dir es))
          (pass3 (rawStats root false (.dir es)))) := by
  unfold scan_directory at h
  injection h with h
  exact h.symm

theorem mkEntry_type {cum : List (Path × (Nat × Nat))} {d : DirStat} :
    (mkEntry cum d).entry_type = .temp ↔ d.isTemp = true := by
  unfold mkEntry
  cases hd : d.isTemp <;> simp [hd]

theorem scan_mem_iff {root : Path} {es : List (String × FsTree)} {temp_only : Bool}
    {l : List DirectoryEntry} {e : DirectoryEntry}
    (h : scan_directory root (some es) temp_only = .ok l) :
    e ∈ l ↔ ∃ d ∈ rawStats root false (.dir es),
      e = mkEntry (pass3 (rawStats root false (.dir es))) d ∧
      (temp_only = true → d.isTemp = true) := by
  rw [scan_ok_elim h, (List.perm_insertionSort bySizeDesc _).mem_iff]
  cases temp_only with
  | false =>
    simp only [if_false, Bool.false_eq_true]
    unfold toEntries
    rw [List.mem_map]
    constructor
    · rintro ⟨d, hd, rfl⟩
      exact ⟨d, hd, rfl, fun hh => by cases hh⟩
    · rintro ⟨d, hd, rfl, _⟩
      exact ⟨d, hd, rfl⟩
  | true =>
    simp only [if_true]
    rw [List.mem_filter]
    unfold toEntries
    rw [List.mem_map]
    constructor
    · rintro ⟨⟨d, hd, rfl⟩, hf⟩
      refine ⟨d, hd, rfl, fun _ => ?_⟩
      exact mkEntry_type.mp (by simpa using hf)
    · rintro ⟨d, hd, rfl, ht⟩
      exact ⟨⟨d, hd, rfl⟩, by simpa using mkEntry_type.mpr (ht trivial)⟩

theorem mkEntry_path (cum : List (Path × (Nat × Nat))) (d : DirStat) :
    (mkEntry cum d).path = d.path := rfl

theorem mkEntry_cum {stats : List DirStat} {d : DirStat}
    (hnd : (stats.map (fun x => x.path)).Nodup) (hd : d ∈ stats) :
    cumLookup (pass3 stats) d.path =
      (d.fc + ((childrenOf stats d.path).map
          (fun x => (cumLookup (pass3 stats) x.path).1)).sum,
       d.sz + ((childrenOf stats d.path).map
          (fun x => (cumLookup (pass3 stats) x.path).2)).sum) ∧
    (mkEntry (pass3 stats) d).cumulative_file_count = (cumLookup (pass3 stats) d.path).1 ∧
    (mkEntry (pass3 stats) d).cumulative_size_bytes = (cumLookup (pass3 stats) d.path).2 := by
  obtain ⟨v, hv, hveq⟩ := pass3_spec stats hnd d hd
  refine ⟨?_, ?_, ?_⟩
  · unfold cumLookup
    rw [hv]
    rw [hveq]
    rfl
  · unfold mkEntry cumLookup
    rw [hv]
    rfl
  · unfold mkEntry cumLookup
    rw [hv]
    rfl

theorem childSum_transfer {stats : List DirStat}
    (hnd : (stats.map (fun x => x.path)).Nodup)
    {l0 : List DirectoryEntry}
    (hperm : l0.Perm (toEntries stats (pass3 stats))) (p : Path) :
    ((l0.filter (fun x => parentPath x.path = some p)).map
        (fun x => x.cumulative_size_bytes)).sum
      = ((childrenOf stats p).map (fun x => (cumLookup (pass3 stats) x.path).2)).sum ∧
    ((l0.filter (fun x => parentPath x.path = some p)).map
        (fun x => x.cumulative_file_count)).sum
      = ((childrenOf stats p).map (fun x => (cumLookup (pass3 stats) x.path).1)).sum := by
  have hfil : (toEntries stats (pass3 stats)).filter
      (fun x => decide (parentPath x.path = some p))
      = (childrenOf stats p).map (mkEntry (pass3 stats)) := by
    unfold toEntries
    rw [List.filter_map]
    unfold childrenOf
    congr 1
    apply List.filter_congr
    intro c _
    simp only [Function.comp]
    rw [decide_eq_decide]
    constructor
    · intro hpp
      exact ⟨hpp, (parentPath_pref hpp).2⟩
    · intro hpp
      exact hpp.1
  constructor
  all_goals {
    rw [((hperm.filter _).map _).sum_eq, hfil, List.map_map]
    apply congrArg
    apply List.map_congr_left
    intro c hc
    have hcs : c ∈ stats := List.mem_filter.mp hc |>.1
    obtain ⟨v, hv, _⟩ := pass3_spec stats hnd c hcs
    simp only [Function.comp]
    unfold mkEntry cumLookup
    rw [hv]
    rfl
  }

/-- C1 amended: for every successful scan, every entry's cumulative
stats dominate its direct stats; and for every successful scan with
`temp_only = false` (where no entry is filtered away), each entry's
cumulative stats equal its direct stats plus the sum of the cumulative
stats of the result entries whose immediate parent path equals its path.
(As stated over the `temp_only = true` result the child-sum law fails:
see the counterexample.) -/
theorem scan_child_sum_amended (root : Path) (es : List (String × FsTree))
    (temp_only : Bool) (l l0 : List DirectoryEntry)
    (hwf : FsTree.wf (.dir es) = true)
    (h : scan_directory root (some es) temp_only = .ok l)
    (h0 : scan_directory root (some es) false = .ok l0) :
    (∀ e ∈ l, e.size_bytes ≤ e.cumulative_size_bytes ∧
      e.file_count ≤ e.cumulative_file_count) ∧
    (∀ e ∈ l0,
      e.cumulative_size_bytes = e.size_bytes +
        ((l0.filter (fun x => parentPath x.path = some e.path)).map
          (fun x => x.cumulative_size_bytes)).sum ∧
      e.cumulative_file_count = e.file_count +
        ((l0.filter (fun x => parentPath x.path = some e.path)).map
          (fun x => x.cumulative_file_count)).sum) := by
  have hnd : ((rawStats root false (.dir es)).map (fun x => x.path)).Nodup :=
    rawStats_nodup _ hwf root false
  constructor
  · intro e he
    obtain ⟨d, hd, rfl, _⟩ := (scan_mem_iff h).mp he
    obtain ⟨hform, hcf, hcs⟩ := mkEntry_cum hnd hd
    constructor
    · rw [hcs, hform]
      exact Nat.le_add_right _ _
    · rw [hcf, hform]
      exact Nat.le_add_right _ _
  · intro e he
    obtain ⟨d, hd, rfl, _⟩ := (scan_mem_iff h0).mp he
    obtain ⟨hform, hcf, hcs⟩ := mkEntry_cum hnd hd
    have hperm : l0.Perm (toEntries (rawStats root false (.dir es))
        (pass3 (rawStats root false (.dir es)))) := by
      rw [scan_ok_elim h0]
      simp only [Bool.false_eq_true, if_false]
      exact List.perm_insertionSort bySizeDesc _
    obtain ⟨hsz, hfc⟩ := childSum_transfer hnd hperm d.path
    constructor
    · rw [hcs, hform]
      simp only [mkEntry_path]
      rw [hsz]
      rfl
    · rw [hcf, hform]
      simp only [mkEntry_path]
      rw [hfc]
      rfl

/-- C1 amended witness on a concrete scan with a temp subtree. -/
theorem scan_child_sum_amended_witness :
    (FsTree.wf (.dir [("node_modules", .dir [("package.json", .file 2)]),
        ("main.js", .file 4)]) = true) ∧
    ((∀ e ∈ ([⟨["r", "node_modules"], 1, 2, 1, 2, .temp⟩] : List DirectoryEntry),
        e.size_bytes ≤ e.cumulative_size_bytes ∧
        e.file_count ≤ e.cumulative_file_count) ∧
      (∀ e ∈ ([⟨["r"], 1, 4, 2, 6, .normal⟩,
          ⟨["r", "node_modules"], 1, 2, 1, 2, .temp⟩] : List DirectoryEntry),
        e.cumulative_size_bytes = e.size_bytes +
          ((([⟨["r"], 1, 4, 2, 6, .normal⟩,
              ⟨["r", "node_modules"], 1, 2, 1, 2, .temp⟩] :
            List DirectoryEntry).filter
              (fun x => parentPath x.path = some e.path)).map
            (fun x => x.cumulative_size_bytes)).sum ∧
        e.cumulative_file_count = e.file_count +
          ((([⟨["r"], 1, 4, 2, 6, .normal⟩,
              ⟨["r", "node_modules"], 1, 2, 1, 2, .temp⟩] :
            List DirectoryEntry).filter
              (fun x => parentPath x.path = some e.path)).map
            (fun x => x.cumulative_file_count)).sum)) :=
  ⟨by decide,
   scan_child_sum_amended ["r"]
     [("node_modules", .dir [("package.json", .file 2)]), ("main.js", .file 4)]
     true
     [⟨["r", "node_modules"], 1, 2, 1, 2, .temp⟩]
     [⟨["r"], 1, 4, 2, 6, .normal⟩, ⟨["r", "node_modules"], 1, 2, 1, 2, .temp⟩]
     (by decide) rfl rfl⟩

/-- C6 amended: in every successful scan the result carries each
distinct directory path at most once, and the scan root's entry is
present whenever `temp_only = false` (with `temp_only = true` a
non-temp root is filtered out: see the counterexample). -/
theorem scan_unique_paths_amended (root : Path) (es : List (String × FsTree))
    (temp_only : Bool) (l : List DirectoryEntry)
    (hwf : FsTree.wf (.dir es) = true)
    (h : scan_directory root (some es) temp_only = .ok l) :
    (l.map (fun e => e.path)).Nodup ∧
    (temp_only = false → ∃ e ∈ l, e.path = root) := by
  have hnd : ((rawStats root false (.dir es)).map (fun x => x.path)).Nodup :=
    rawStats_nodup _ hwf root false
  constructor
  · rw [scan_ok_elim h]
    have hperm := (List.perm_insertionSort bySizeDesc
      (if temp_only
        then (toEntries (rawStats root false (.dir es))
            (pass3 (rawStats root false (.dir es)))).filter
          (fun e => e.entry_type = .temp)
        else toEntries (rawStats root false (.dir es))
          (pass3 (rawStats root false (.dir es))))).map (fun e => e.path)
    rw [hperm.nodup_iff]
    have hbase : ((toEntries (rawStats root false (.dir es))
        (pass3 (rawStats root false (.dir es)))).map (fun e => e.path)).Nodup := by
      unfold toEntries
      rw [List.map_map]
      have : ((rawStats root false (.dir es)).map
          ((fun e => e.path) ∘ mkEntry (pass3 (rawStats root false (.dir es)))))
          = (rawStats root false (.dir es)).map (fun x => x.path) := by
        apply List.map_congr_left
        intro d _
        rfl
      rw [this]
      exact hnd
    cases temp_only with
    | false => simpa using hbase
    | true =>
      simp only [if_true]
      exact hbase.sublist ((List.filter_sublist _).map _)
  · intro ht
    subst ht
    refine ⟨mkEntry (pass3 (rawStats root false (.dir es)))
      ⟨root, isTempPath root,
        (if isTempPath root then subtreeCountList es
         else if false || isTempPath root then (0, 0) else directStats es).1,
        (if isTempPath root then subtreeCountList es
         else if false || isTempPath root then (0, 0) else directStats es).2⟩, ?_, rfl⟩
    refine (scan_mem_iff h).mpr ⟨_, ?_, rfl, fun hh => by cases hh⟩
    rw [rawStats_dir]
    exact List.mem_cons_self _ _

/-- C6 amended witness on a concrete scan whose root has no direct
files. -/
theorem scan_unique_paths_amended_witness :
    (FsTree.wf (.dir [("src", .dir [("main.rs", .file 3)])]) = true) ∧
    ((([⟨["r"], 0, 0, 1, 3, .normal⟩, ⟨["r", "src"], 1, 3, 1, 3, .normal⟩] :
        List DirectoryEntry).map (fun e => e.path)).Nodup ∧
      (false = false → ∃ e ∈ ([⟨["r"], 0, 0, 1, 3, .normal⟩,
          ⟨["r", "src"], 1, 3, 1, 3, .normal⟩] : List DirectoryEntry), e.path = ["r"])) :=
  ⟨by decide,
   scan_unique_paths_amended ["r"] [("src", .dir [("main.rs", .file 3)])] false
     [⟨["r"], 0, 0, 1, 3, .normal⟩, ⟨["r", "src"], 1, 3, 1, 3, .normal⟩]
     (by decide) rfl⟩

/-! ### Collapsed temp subtrees (C2) -/

theorem pref_antisym {a b : Path} (h1 : a <+: b) (h2 : b <+: a) : a = b :=
  pref_eq_of_length h1 (pref_refl b)
    (Nat.le_antisymm (pref_length h1) (pref_length h2))

theorem countP_lt_of_imp {α : Type} {p q : α → Bool} {l : List α}
    (himp : ∀ a, q a = true → p a = true) {x : α} (hx : x ∈ l)
    (hpx : p x = true) (hqx : q x = false) :
    l.countP q < l.countP p := by
  induction l with
  | nil => cases hx
  | cons a rest ih =>
    rw [List.countP_cons, List.countP_cons]
    have hmono : rest.countP q ≤ rest.countP p :=
      List.countP_mono_left (fun a _ => himp a)
    rcases List.mem_cons.mp hx with rfl | hx'
    · rw [hpx, hqx]
      simpa using Nat.lt_succ_of_le hmono
    · by_cases hqa : q a = true
      · rw [himp a hqa, hqa]
        simpa using ih hx'
      · rw [Bool.not_eq_true] at hqa
        rw [hqa]
        cases hpa : p a
        · simpa using ih hx'
        · simpa using Nat.lt_succ_of_le (Nat.le_of_lt (ih hx'))

theorem cum_of_zero_below {stats : List DirStat}
    (hnd : (stats.map (fun x => x.path)).Nodup) :
    ∀ (N : Nat) (d : DirStat), d ∈ stats →
      stats.countP (fun c => decide (d.path <+: c.path ∧ c.path ≠ d.path)) < N →
      (∀ c ∈ stats, d.path <+: c.path → c.path ≠ d.path → c.fc = 0 ∧ c.sz = 0) →
      cumLookup (pass3 stats) d.path = (d.fc, d.sz) := by
  intro N
  induction N with
  | zero =>
    intro d _ hcount
    exact absurd hcount (Nat.not_lt_zero _)
  | succ N ih =>
    intro d hd hcount hzero
    obtain ⟨hform, _, _⟩ := mkEntry_cum hnd hd
    rw [hform]
    have hchild : ∀ x ∈ childrenOf stats d.path,
        cumLookup (pass3 stats) x.path = (0, 0) := by
      intro x hx
      have hxs : x ∈ stats := (List.mem_filter.mp hx).1
      have hxp : parentPath x.path = some d.path ∧ x.path ≠ d.path := by
        simpa using (List.mem_filter.mp hx).2
      obtain ⟨hxbel, hxne⟩ := parentPath_pref hxp.1
      have himp : ∀ a : DirStat,
          decide (x.path <+: a.path ∧ a.path ≠ x.path) = true →
          decide (d.path <+: a.path ∧ a.path ≠ d.path) = true := by
        intro a ha
        rw [decide_eq_true_eq] at ha ⊢
        refine ⟨pref_trans hxbel ha.1, ?_⟩
        intro had
        rw [had] at ha
        exact hxne (pref_antisym ha.1 hxbel)
      have hcx : stats.countP (fun c => decide (x.path <+: c.path ∧ c.path ≠ x.path))
          < stats.countP (fun c => decide (d.path <+: c.path ∧ c.path ≠ d.path)) := by
        refine countP_lt_of_imp himp hxs ?_ ?_
        · rw [decide_eq_true_eq]
          exact ⟨hxbel, hxne⟩
        · simp
      have hzx : ∀ c ∈ stats, x.path <+: c.path → c.path ≠ x.path →
          c.fc = 0 ∧ c.sz = 0 := by
        intro c hc hbel hne
        refine hzero c hc (pref_trans hxbel hbel) ?_
        intro hcd
        rw [hcd] at hbel
        exact hxne (pref_antisym hbel hxbel)
      have hx0 : x.fc = 0 ∧ x.sz = 0 := hzero x hxs hxbel hxne
      have := ih x hxs (by omega) hzx
      rw [this, hx0.1, hx0.2]
    have hz1 : ((childrenOf stats d.path).map
        (fun x => (cumLookup (pass3 stats) x.path).1)).sum = 0 := by
      apply List.sum_eq_zero
      intro v hv
      obtain ⟨x, hx, rfl⟩ := List.mem_map.mp hv
      rw [hchild x hx]
    have hz2 : ((childrenOf stats d.path).map
        (fun x => (cumLookup (pass3 stats) x.path).2)).sum = 0 := by
      apply List.sum_eq_zero
      intro v hv
      obtain ⟨x, hx, rfl⟩ := List.mem_map.mp hv
      rw [hchild x hx]
    rw [hz1, hz2]
    simp

/-- C2 amended: a Temp entry with no other Temp entry strictly below it
in the result has collapsed stats — its direct stats equal its
cumulative stats.  (With a Temp directory nested strictly inside
another Temp directory the law fails for the outer one: see the
counterexample.) -/
theorem temp_collapse_amended (root : Path) (es : List (String × FsTree))
    (temp_only : Bool) (l : List DirectoryEntry) (e : DirectoryEntry)
    (hwf : FsTree.wf (.dir es) = true)
    (h : scan_directory root (some es) temp_only = .ok l)
    (he : e ∈ l) (het : e.entry_type = .temp)
    (hiso : ∀ e' ∈ l, e'.entry_type = .temp → e.path <+: e'.path → e' = e) :
    e.size_bytes = e.cumulative_size_bytes ∧
    e.file_count = e.cumulative_file_count := by
  have hnd : ((rawStats root false (.dir es)).map (fun x => x.path)).Nodup :=
    rawStats_nodup _ hwf root false
  obtain ⟨d, hd, rfl, _⟩ := (scan_mem_iff h).mp he
  have hdt : d.isTemp = true := mkEntry_type.mp het
  have hzero : ∀ c ∈ rawStats root false (.dir es),
      d.path <+: c.path → c.path ≠ d.path → c.fc = 0 ∧ c.sz = 0 := by
    intro c hc hbel hne
    cases hct : c.isTemp with
    | false =>
      exact rawStats_below_temp_zero (.dir es) hwf root false d c hd hc hdt hbel hne hct
    | true =>
      exfalso
      have hcl : mkEntry (pass3 (rawStats root false (.dir es))) c ∈ l :=
        (scan_mem_iff h).mpr ⟨c, hc, rfl, fun _ => hct⟩
      have hceq := hiso _ hcl (mkEntry_type.mpr hct) (by
        simpa [mkEntry_path] using hbel)
      have : c.path = d.path := congrArg DirectoryEntry.path hceq
      exact hne this
  have hcum := cum_of_zero_below hnd
    ((rawStats root false (.dir es)).countP
      (fun c => decide (d.path <+: c.path ∧ c.path ≠ d.path)) + 1)
    d hd (Nat.lt_succ_self _) hzero
  obtain ⟨_, hcf, hcs⟩ := mkEntry_cum hnd hd
  constructor
  · rw [hcs, hcum]
    rfl
  · rw [hcf, hcum]
    rfl


/-- C2 amended witness: a Temp directory with no nested temp collapses
exactly. -/
theorem temp_collapse_amended_witness :
    (FsTree.wf (.dir [("node_modules", .dir [("package.json", .file 2)]),
        ("main.js", .file 4)]) = true) ∧
    ((⟨["r", "node_modules"], 1, 2, 1, 2, .temp⟩ : DirectoryEntry).size_bytes =
      (⟨["r", "node_modules"], 1, 2, 1, 2, .temp⟩ : DirectoryEntry).cumulative_size_bytes ∧
     (⟨["r", "node_modules"], 1, 2, 1, 2, .temp⟩ : DirectoryEntry).file_count =
      (⟨["r", "node_modules"], 1, 2, 1, 2, .temp⟩ : DirectoryEntry).cumulative_file_count) :=
  ⟨by decide,
   temp_collapse_amended ["r"]
     [("node_modules", .dir [("package.json", .file 2)]), ("main.js", .file 4)]
     false
     [⟨["r"], 1, 4, 2, 6, .normal⟩, ⟨["r", "node_modules"], 1, 2, 1, 2, .temp⟩]
     ⟨["r", "node_modules"], 1, 2, 1, 2, .temp⟩
     (by decide) rfl (by decide) rfl (by decide)⟩

/-! ### Pass 1 attribution (C4) -/

theorem findChild_mem {n : String} {c : FsTree} :
    ∀ {es : List (String × FsTree)}, findChild n es = some c → (n, c) ∈ es := by
  intro es
  induction es with
  | nil => intro h; simp [findChild] at h
  | cons e rest ih =>
    intro h
    obtain ⟨n', c'⟩ := e
    simp only [findChild] at h
    by_cases hn : n' = n
    · rw [if_pos hn] at h
      injection h with h
      rw [hn, h]
      exact List.mem_cons_self _ _
    · rw [if_neg hn] at h
      exact List.mem_cons_of_mem _ (ih h)

theorem rawStatsList_mem_of {n : String} {c : FsTree} {p : Path} {anc : Bool}
    {x : DirStat} :
    ∀ {es : List (String × FsTree)}, (n, c) ∈ es →
      x ∈ rawStats (p ++ [n]) anc c → x ∈ rawStatsList p anc es := by
  intro es
  induction es with
  | nil => intro hm; simp at hm
  | cons e rest ih =>
    intro hm hx
    obtain ⟨n', c'⟩ := e
    simp only [rawStatsList]
    rcases List.mem_cons.mp hm with hm | hm
    · injection hm with h1 h2
      rw [← h1, ← h2]
      exact List.mem_append_left _ hx
    · exact List.mem_append_right _ (ih hm hx)

theorem isTempPath_concat (p : Path) (n : String) :
    isTempPath (p ++ [n]) = is_temp_directory n := by
  unfold isTempPath
  rw [List.getLast?_concat]

theorem rawStats_sub_mem :
    ∀ (rel : List String) (es es' : List (String × FsTree)) (p : Path) (anc : Bool),
      lookupSub es rel = some es' →
      (⟨p ++ rel, isTempPath (p ++ rel),
        (if isTempPath (p ++ rel) then subtreeCountList es'
         else if anc || isTempPath p || rel.any (fun n => is_temp_directory n) then (0, 0)
         else directStats es').1,
        (if isTempPath (p ++ rel) then subtreeCountList es'
         else if anc || isTempPath p || rel.any (fun n => is_temp_directory n) then (0, 0)
         else directStats es').2⟩ : DirStat)
        ∈ rawStats p anc (.dir es) := by
  intro rel
  induction rel with
  | nil =>
    intro es es' p anc hsub
    simp only [lookupSub] at hsub
    injection hsub with hsub
    subst hsub
    rw [rawStats_dir]
    have heq : (⟨p ++ [], isTempPath (p ++ []),
        (if isTempPath (p ++ []) then subtreeCountList es
         else if anc || isTempPath p || [].any (fun n => is_temp_directory n) then (0, 0)
         else directStats es).1,
        (if isTempPath (p ++ []) then subtreeCountList es
         else if anc || isTempPath p || [].any (fun n => is_temp_directory n) then (0, 0)
         else directStats es).2⟩ : DirStat)
        = ⟨p, isTempPath p,
        (if isTempPath p then subtreeCountList es
         else if anc || isTempPath p then (0, 0) else directStats es).1,
        (if isTempPath p then subtreeCountList es
         else if anc || isTempPath p then (0, 0) else directStats es).2⟩ := by
      simp
    rw [heq]
    exact List.mem_cons_self _ _
  | cons n rest ih =>
    intro es es' p anc hsub
    simp only [lookupSub] at hsub
    cases hfc : findChild n es with
    | none => rw [hfc] at hsub; simp at hsub
    | some c =>
      rw [hfc] at hsub
      cases c with
      | file s => simp at hsub
      | err => simp at hsub
      | dir es₁ =>
        have hm := findChild_mem hfc
        have hx := ih es₁ es' (p ++ [n]) (anc || isTempPath p) hsub
        rw [rawStats_dir]
        apply List.mem_cons_of_mem
        refine rawStatsList_mem_of hm ?_
        have hpath : p ++ n :: rest = (p ++ [n]) ++ rest := by simp
        have hcond : (anc || isTempPath p || (n :: rest).any (fun m => is_temp_directory m))
            = (anc || isTempPath p || isTempPath (p ++ [n])
                || rest.any (fun m => is_temp_directory m)) := by
          rw [isTempPath_concat, List.any_cons]
          cases anc <;> cases isTempPath p <;>
            cases is_temp_directory n <;>
            cases rest.any (fun m => is_temp_directory m) <;> rfl
        rw [hpath, hcond]
        exact hx

/-- C4 amended: Pass 1's per-file ancestor walk checks every ancestor
from the file's immediate parent up to and including the scan root
itself (the root check happens before the loop stops there).  Hence,
for a directory at `root ++ rel` on a chain with no temp-classified
name — the root's own name included — the entry's direct stats are
exactly its directly contained files; but when the root's own name is
temp-classified, a non-temp directory below it reports zero direct
stats even though every ancestor strictly between its files and the
root is Normal (the claim's scenario: see the counterexample). -/
theorem pass1_attribution_amended (root : Path) (es es' : List (String × FsTree))
    (rel : List String) (l : List DirectoryEntry)
    (hwf : FsTree.wf (.dir es) = true)
    (hsub : lookupSub es rel = some es')
    (h : scan_directory root (some es) false = .ok l) :
    (isTempPath root = false → rel.all (fun n => ! is_temp_directory n) = true →
      ∃ e ∈ l, e.path = root ++ rel ∧ e.file_count = (directStats es').1 ∧
        e.size_bytes = (directStats es').2 ∧ e.entry_type = .normal) ∧
    (isTempPath root = true → isTempPath (root ++ rel) = false →
      ∃ e ∈ l, e.path = root ++ rel ∧ e.file_count = 0 ∧ e.size_bytes = 0) := by
  have hstat := rawStats_sub_mem rel es es' root false hsub
  constructor
  · intro hroot hall
    have hallm : ∀ n ∈ rel, is_temp_directory n = false := by
      intro n hn
      have := List.all_eq_true.mp hall n hn
      simpa using this
    have hany : rel.any (fun n => is_temp_directory n) = false := by
      rw [List.any_eq_false]
      intro n hn
      simp [hallm n hn]
    have htmp : isTempPath (root ++ rel) = false := by
      rcases List.eq_nil_or_concat rel with hrel | ⟨init, last, hrel⟩
      · subst hrel
        simpa using hroot
      · have hlast : last ∈ rel := by
          rw [hrel, List.concat_eq_append]
          exact List.mem_append_right _ (List.mem_singleton.mpr rfl)
        rw [hrel, List.concat_eq_append, ← List.append_assoc, isTempPath_concat]
        exact hallm last hlast
    have hcond : (false || isTempPath root || rel.any (fun n => is_temp_directory n))
        = false := by
      rw [hroot, hany]
      rfl
    rw [htmp, hcond] at hstat
    simp only [Bool.false_eq_true, if_false] at hstat
    have hmem := (scan_mem_iff h).mpr ⟨_, hstat, rfl, fun hh => by cases hh⟩
    exact ⟨_, hmem, rfl, rfl, rfl, rfl⟩
  · intro hroot htmp
    have hcond : (false || isTempPath root || rel.any (fun n => is_temp_directory n))
        = true := by
      rw [hroot]
      rfl
    rw [htmp, hcond] at hstat
    simp only [Bool.false_eq_true, if_false, if_true] at hstat
    have hmem := (scan_mem_iff h).mpr ⟨_, hstat, rfl, fun hh => by cases hh⟩
    exact ⟨_, hmem, rfl, rfl, rfl⟩

/-- C4 amended witness on a concrete scan with a normal root: the file
under `r/a` is attributed to `a`'s direct stats. -/
theorem pass1_attribution_amended_witness :
    (FsTree.wf (.dir [("a", .dir [("f", .file 5)])]) = true) ∧
    lookupSub [("a", .dir [("f", .file 5)])] ["a"] = some [("f", .file 5)] ∧
    ((isTempPath ["r"] = false →
        (["a"] : List String).all (fun n => ! is_temp_directory n) = true →
        ∃ e ∈ ([⟨["r"], 0, 0, 1, 5, .normal⟩, ⟨["r", "a"], 1, 5, 1, 5, .normal⟩] :
            List DirectoryEntry),
          e.path = ["r"] ++ ["a"] ∧
          e.file_count = (directStats [("f", .file 5)]).1 ∧
          e.size_bytes = (directStats [("f", .file 5)]).2 ∧
          e.entry_type = .normal) ∧
      (isTempPath ["r"] = true → isTempPath (["r"] ++ ["a"]) = false →
        ∃ e ∈ ([⟨["r"], 0, 0, 1, 5, .normal⟩, ⟨["r", "a"], 1, 5, 1, 5, .normal⟩] :
            List DirectoryEntry),
          e.path = ["r"] ++ ["a"] ∧ e.file_count = 0 ∧ e.size_bytes = 0)) :=
  ⟨by decide, rfl,
   pass1_attribution_amended ["r"] [("a", .dir [("f", .file 5)])] [("f", .file 5)]
     ["a"]
     [⟨["r"], 0, 0, 1, 5, .normal⟩, ⟨["r", "a"], 1, 5, 1, 5, .normal⟩]
     (by decide) rfl rfl⟩

end DiskCleanup
